import Mathlib

/-!
Verification of the flann block-compressed serialization layer
(`src/cpp/flann/util/serialization.h` and its companion translation unit).

The C++ code is shallowly embedded: byte buffers and streams are `List Nat`
(each element a byte value `< 256`), `size_t` arithmetic is `Nat` with
explicit `% 2^64` where wrap-around matters, and the opaque LZ4 primitives
`LZ4_compress_HC_continue` / `LZ4_decompress_safe(_continue)` are modelled
as explicit function parameters `comp` / `decomp` (the spec treats the
compression algorithm as an opaque `compress : block -> bytes` /
`decompress : bytes -> block` pair with a known worst-case output bound).
Fallible operations return `Except`, mirroring the `throw FLANNException`
calls in the source; `assert` and size_t underflow in `SaveArchive` are
modelled as distinguished error outcomes.
-/

namespace FlannSer

/-- `#define BLOCK_BYTES (1024 * 64)` — the staging-block capacity. -/
def BLOCK_BYTES : Nat := 1024 * 64

/-- `sizeof(IndexHeaderStruct)` on an LP64 platform:
`char signature[24]` + `char version[16]` + two 4-byte enums +
four 8-byte `size_t` fields = 80 bytes, with no padding. -/
def headSz : Nat := 80

/-- `sizeof(size_t)` on an LP64 platform (the length-prefix width). -/
def szLen : Nat := 8

/-- `LZ4_COMPRESSBOUND(isize) = (isize) + ((isize)/255) + 16`
(worst-case compressed size for an `isize`-byte input). -/
def lz4CompressBound (isize : Nat) : Nat := isize + isize / 255 + 16

/-- Little-endian encoding of `n` into `w` bytes (the memory image that
`memcpy(buffer_ + offset_, &val, sizeof(val))` copies for an integer). -/
def encLE : Nat → Nat → List Nat
  | 0, _ => []
  | w + 1, n => n % 256 :: encLE w (n / 256)

/-- Little-endian decoding of a byte list (the inverse `memcpy` on load). -/
def decLE : List Nat → Nat
  | [] => 0
  | b :: bs => b % 256 + 256 * decLE bs

/-- The fixed-layout file header (`struct IndexHeaderStruct`). -/
structure IndexHeaderStruct where
  signature : List Nat
  version : List Nat
  data_type : Nat
  index_type : Nat
  rows : Nat
  cols : Nat
  compression : Nat
  first_block_size : Nat

/-- Well-formedness of a header value: the two character arrays have their
declared lengths and all stored quantities fit their fixed-width fields. -/
def HdrWF (h : IndexHeaderStruct) : Prop :=
  h.signature.length = 24 ∧ (∀ b ∈ h.signature, b < 256) ∧
  h.version.length = 16 ∧ (∀ b ∈ h.version, b < 256) ∧
  h.data_type < 2 ^ 32 ∧ h.index_type < 2 ^ 32 ∧
  h.rows < 2 ^ 64 ∧ h.cols < 2 ^ 64 ∧
  h.compression < 2 ^ 64 ∧ h.first_block_size < 2 ^ 64

/-- The 80-byte memory image of an `IndexHeaderStruct`.  Field offsets:
signature 0–23, version 24–39, data_type 40–43, index_type 44–47,
rows 48–55, cols 56–63, compression 64–71, first_block_size 72–79. -/
def encodeHeader (h : IndexHeaderStruct) : List Nat :=
  h.signature ++ h.version ++ encLE 4 h.data_type ++ encLE 4 h.index_type ++
    encLE 8 h.rows ++ encLE 8 h.cols ++ encLE 8 h.compression ++
    encLE 8 h.first_block_size

/-- The in-place header patch performed by the first `flushBlock`:
`head->compression = 1` (bytes 64–71) and `head->first_block_size = compSz`
(bytes 72–79); all bytes before offset 64 are untouched. -/
def patchHdr (hdr : List Nat) (compSz : Nat) : List Nat :=
  hdr.take 64 ++ encLE 8 1 ++ encLE 8 compSz

/-- Error outcomes of the save path.  `assertFail` is the
`assert(head->compression == 0)` in `flushBlock`; `underflow` is the
`size_t` underflow of `offset_ - headSz` that the same branch would commit
when less than a header's worth of bytes has been accumulated;
the two compression errors are the `compSz <= 0` throws. -/
inductive SaveErr where
  | assertFail
  | underflow
  | compressFirstFail
  | compressFail
  | valueTooLarge
  deriving DecidableEq, Repr

/-- The observable state of a `SaveArchive`: the bytes accumulated in the
active staging block (`buffer_` up to `offset_`, so `offset_` is
`buffer.length`), the `first_block_` flag, and the bytes written to the
output stream so far.  Which half of the malloc'd double buffer backs
`buffer_` only matters to LZ4's history window, which is folded into the
opaque `comp` parameter, so the half-selection pointer is not tracked. -/
structure SaveState where
  buffer : List Nat
  first_block : Bool
  out : List Nat
  deriving DecidableEq, Repr

/-- `SaveArchive::flushBlock`.  On the first block the leading `headSz`
bytes of the buffer are reinterpreted as the header, the compression flag
is asserted to be 0 and patched to 1, the body (everything after the
header) is compressed, the patched header is stored into
`first_block_size`, and header + compressed body are written.  On later
blocks the whole buffer is compressed and written behind an 8-byte
compressed-length prefix. -/
def flushBlock (comp : List Nat → List Nat) (s : SaveState) :
    Except SaveErr SaveState :=
  if s.first_block then
    if s.buffer.length < headSz then .error .underflow
    else if decLE ((s.buffer.drop 64).take 8) ≠ 0 then .error .assertFail
    else if (comp (s.buffer.drop headSz)).length = 0 then
      .error .compressFirstFail
    else .ok ⟨[], false,
      s.out ++ patchHdr (s.buffer.take headSz)
        (comp (s.buffer.drop headSz)).length ++ comp (s.buffer.drop headSz)⟩
  else if (comp s.buffer).length = 0 then .error .compressFail
  else .ok ⟨[], false,
    s.out ++ encLE 8 (comp s.buffer).length ++ comp s.buffer⟩

/-- `SaveArchive::save(const T&)`: assert the value is smaller than a
block, flush first if it would overflow the active block, then copy the
value's bytes at the write offset. -/
def saveBytes (comp : List Nat → List Nat) (bs : List Nat) (s : SaveState) :
    Except SaveErr SaveState :=
  if bs.length ≥ BLOCK_BYTES then .error .valueTooLarge
  else
    match (if s.buffer.length + bs.length > BLOCK_BYTES
           then flushBlock comp s else .ok s) with
    | .error e => .error e
    | .ok s1 => .ok ⟨s1.buffer ++ bs, s1.first_block, s1.out⟩

/-- The number of iterations `while (size > BLOCK_BYTES)` performs for a
given byte count: each iteration subtracts exactly `BLOCK_BYTES`, and the
loop runs while the remainder exceeds `BLOCK_BYTES`, so the trip count is
`(size - 1) / BLOCK_BYTES` (and the guard `size > BLOCK_BYTES` holds
exactly when this count is positive). -/
def binIters (size : Nat) : Nat := (size - 1) / BLOCK_BYTES

/-- The loop of `SaveArchive::save_binary`, with its remaining trip count
made explicit: at trip count 0 (the loop guard fails), flush if the
remainder would overflow the active block and copy it at the write
offset; otherwise flush, copy a full block at the buffer start, and
continue on the rest. -/
def saveBinLoop (comp : List Nat → List Nat) :
    Nat → List Nat → SaveState → Except SaveErr SaveState
  | 0, bs, s =>
    match (if s.buffer.length + bs.length > BLOCK_BYTES
           then flushBlock comp s else .ok s) with
    | .error e => .error e
    | .ok s1 => .ok ⟨s1.buffer ++ bs, s1.first_block, s1.out⟩
  | k + 1, bs, s =>
    match flushBlock comp s with
    | .error e => .error e
    | .ok s1 => saveBinLoop comp k (bs.drop BLOCK_BYTES)
        ⟨bs.take BLOCK_BYTES, s1.first_block, s1.out⟩

/-- `SaveArchive::save_binary`. -/
def saveBinary (comp : List Nat → List Nat) (bs : List Nat)
    (s : SaveState) : Except SaveErr SaveState :=
  saveBinLoop comp (binIters bs.length) bs s

/-- A primitive archive operation issued by the dispatch layer: one
`save`/`load` of a fixed-width value's raw bytes, or one
`save_binary`/`load_binary` of a blob. -/
inductive Op where
  | sc (bs : List Nat)
  | bin (bs : List Nat)
  deriving DecidableEq, Repr

/-- The bytes an operation hands to the archive. -/
def Op.payload : Op → List Nat
  | .sc bs => bs
  | .bin bs => bs

/-- The static constraint on a scalar save: `sizeof(val)` is nonzero and
the `assert(sizeof(val) < BLOCK_BYTES)` in `SaveArchive::save` holds. -/
def validOp : Op → Prop
  | .sc bs => bs ≠ [] ∧ bs.length < BLOCK_BYTES
  | .bin _ => True

def validOps (ops : List Op) : Prop := ∀ op ∈ ops, validOp op

/-- Run a list of primitive operations through the `SaveArchive`. -/
def runOps (comp : List Nat → List Nat) : List Op → SaveState →
    Except SaveErr SaveState
  | [], s => .ok s
  | .sc bs :: rest, s =>
    match saveBytes comp bs s with
    | .error e => .error e
    | .ok s1 => runOps comp rest s1
  | .bin bs :: rest, s =>
    match saveBinary comp bs s with
    | .error e => .error e
    | .ok s1 => runOps comp rest s1

/-- Pure chunking mirroring `saveBinLoop`'s control flow: the block
contents flushed during the call and the buffer contents afterwards. -/
def wbinLoop : Nat → List Nat → List Nat → List (List Nat) × List Nat
  | 0, bs, buf =>
    if buf.length + bs.length > BLOCK_BYTES then ([buf], bs)
    else ([], buf ++ bs)
  | k + 1, bs, buf =>
    let p := wbinLoop k (bs.drop BLOCK_BYTES) (bs.take BLOCK_BYTES)
    (buf :: p.1, p.2)

/-- Pure chunking for `save_binary`. -/
def wbin (bs buf : List Nat) : List (List Nat) × List Nat :=
  wbinLoop (binIters bs.length) bs buf

/-- Pure chunking for one operation. -/
def wop : Op → List Nat → List (List Nat) × List Nat
  | .sc bs, buf =>
    if buf.length + bs.length > BLOCK_BYTES then ([buf], bs) else ([], buf ++ bs)
  | .bin bs, buf => wbin bs buf

/-- Pure chunking for an operation list: the blocks flushed while running
the operations from a given buffer, and the final buffer contents. -/
def wrun : List Op → List Nat → List (List Nat) × List Nat
  | [], buf => ([], buf)
  | op :: rest, buf =>
    let p := wop op buf
    let q := wrun rest p.2
    (p.1 ++ q.1, q.2)

/-- The final contents of the block the writer is filling at this point
(its contents once it is eventually flushed). -/
def headBlk (ops : List Op) (buf : List Nat) : List Nat :=
  match wrun ops buf with
  | ([], fin) => fin
  | (b :: _, _) => b

/-- The blocks that will be flushed after the current one, the final
partial block included; the destructor flushes the latter too. -/
def tailBlks (ops : List Op) (buf : List Nat) : List (List Nat) :=
  match wrun ops buf with
  | ([], _) => []
  | (_ :: t, fin) => t ++ [fin]

/-- The framed wire image of a list of non-first blocks: each compressed
block behind its 8-byte compressed-length prefix. -/
def emitFrames (comp : List Nat → List Nat) (blocks : List (List Nat)) :
    List Nat :=
  (blocks.map fun b => encLE 8 (comp b).length ++ comp b).flatten

/-- The framed wire image of the first block `b = header ++ body`: the
patched header followed by the compressed body, no length prefix. -/
def firstFrame (comp : List Nat → List Nat) (b : List Nat) : List Nat :=
  patchHdr (b.take headSz) (comp (b.drop headSz)).length ++ comp (b.drop headSz)

/-- `~SaveArchive` after the construction-time `initBlock` and a run of
operations: the final `flushBlock` plus `endBlock`'s zero sentinel. -/
def saveClose (comp : List Nat → List Nat) (s : SaveState) :
    Except SaveErr (List Nat) :=
  match flushBlock comp s with
  | .error e => .error e
  | .ok s1 => .ok (s1.out ++ encLE 8 0)

/-- A whole `SaveArchive` lifetime: construction (`initBlock` gives the
empty first-block state), a list of primitive operations, destruction. -/
def saveRun (comp : List Nat → List Nat) (ops : List Op) :
    Except SaveErr (List Nat) :=
  match runOps comp ops ⟨[], true, []⟩ with
  | .error e => .error e
  | .ok s => saveClose comp s

/-- Error outcomes of the load path, one per distinct
`throw FLANNException` diagnostic in the source. -/
inductive LoadErr where
  | readHeaderFail
  | readCompressedFail
  | compressionNotSupported
  | decompressionSizeMismatch
  | blockTooLarge
  | readBlockFail
  | decompressFail
  | readPastEnd
  | readEndFail
  | lastBlockNotZero
  | staleRead
  deriving DecidableEq, Repr

/-- The observable state of a `LoadArchive`: the valid bytes of the active
decompressed block (`buffer_` up to `block_sz_`), the read cursor
(`ptr_ - buffer_`), the unread remainder of the input stream, and whether
the archive is in the legacy single-buffer mode (`buffer_blocks_ == NULL`
after `decompressAndLoadV10`). -/
structure LoadState where
  block : List Nat
  pos : Nat
  stream : List Nat
  legacy : Bool
  deriving DecidableEq, Repr

/-- `loadBlock`: reject a compressed size at or above the staging buffer's
capacity `LZ4_COMPRESSBOUND(BLOCK_BYTES)` before touching the stream, read
that many compressed bytes (`fread` with size 0 returns 0, so a zero size
also fails the `!= 1` check), decompress, and reject a non-positive
decompressed size.  Returns the decompressed block and the remaining
stream. -/
def loadBlock (decomp : List Nat → List Nat) (compSz : Nat)
    (stream : List Nat) : Except LoadErr (List Nat × List Nat) :=
  if compSz ≥ lz4CompressBound BLOCK_BYTES then .error .blockTooLarge
  else if compSz = 0 ∨ stream.length < compSz then .error .readBlockFail
  else
    let dec := decomp (stream.take compSz)
    if dec.length = 0 ∨ dec.length > BLOCK_BYTES then .error .decompressFail
    else .ok (dec, stream.drop compSz)

/-- 64-bit wrap-around subtraction, for the `size_t` differences taken in
`decompressAndLoadV10`. -/
def sub64 (a b : Nat) : Nat := (2 ^ 64 + a - b % 2 ^ 64) % 2 ^ 64

/-- `LoadArchive::decompressAndLoadV10`: slurp the remaining stream,
reinterpret its head as the header, reject an unsupported compression tag,
decompress the single payload, require the decompressed size to equal
`first_block_size - headSz`, and leave the cursor at the block start with
the header bytes copied in front of the payload.  The caller enters at
stream position 0, so the final `fseek` lands at end-of-stream. -/
def decompressAndLoadV10 (decomp : List Nat → List Nat)
    (stream : List Nat) : Except LoadErr LoadState :=
  if stream.length = 0 then .error .readCompressedFail
  else if decLE (((stream.take headSz).drop 64).take 8) ≠ 1 then
    .error .compressionNotSupported
  else if (decomp ((stream.drop headSz).take (stream.length - headSz))).length ≠
      sub64 (decLE (((stream.take headSz).drop 72).take 8)) headSz then
    .error .decompressionSizeMismatch
  else
    .ok ⟨stream.take headSz ++
      decomp ((stream.drop headSz).take (stream.length - headSz)), 0, [], true⟩

/-- `LoadArchive::initBlock`: read one header's worth of bytes; if
`signature[13] == '1' && signature[15] == '0'` (`'1'` = 49, `'0'` = 48),
seek back to the stream start and run the legacy decoder on the whole
stream; otherwise read `first_block_size` compressed bytes, decompress
them behind a copy of the header bytes, and set the cursor to the block
start. -/
def initBlock (decomp : List Nat → List Nat) (stream : List Nat) :
    Except LoadErr LoadState :=
  if stream.length < headSz then .error .readHeaderFail
  else if (stream.take headSz)[13]? = some 49 ∧
      (stream.take headSz)[15]? = some 48 then
    decompressAndLoadV10 decomp stream
  else
    match loadBlock decomp (decLE (((stream.take headSz).drop 72).take 8))
        (stream.drop headSz) with
    | .error e => .error e
    | .ok (body, rest) => .ok ⟨stream.take headSz ++ body, 0, rest, false⟩

/-- `LoadArchive::preparePtr`: if the requested bytes fit in the valid
remainder of the active block, do nothing; otherwise read the next 8-byte
compressed-length prefix (zero or a short read is "past end of file"),
load that block into the other buffer half, and reset the cursor. -/
def preparePtr (decomp : List Nat → List Nat) (size : Nat) (s : LoadState) :
    Except LoadErr LoadState :=
  if s.pos + size ≤ s.block.length then .ok s
  else if s.stream.length < 8 then .error .readPastEnd
  else
    let cmpSz := decLE (s.stream.take 8)
    if cmpSz = 0 then .error .readPastEnd
    else
      match loadBlock decomp cmpSz (s.stream.drop 8) with
      | .error e => .error e
      | .ok (blk, rest) => .ok ⟨blk, 0, rest, s.legacy⟩

/-- The `memcpy(dst, ptr_, size); ptr_ += size;` core of the load
primitives.  A read extending past `block_sz_` would copy unspecified
stale bytes of the other buffer half in the source; it is modelled as a
distinguished error (it is unreachable on streams the save path wrote). -/
def readAt (size : Nat) (s : LoadState) :
    Except LoadErr (List Nat × LoadState) :=
  if s.pos + size ≤ s.block.length then
    .ok ((s.block.drop s.pos).take size, ⟨s.block, s.pos + size, s.stream, s.legacy⟩)
  else .error .staleRead

/-- `LoadArchive::load(T&)`: `preparePtr(sizeof(val))` then copy. -/
def loadBytes (decomp : List Nat → List Nat) (size : Nat) (s : LoadState) :
    Except LoadErr (List Nat × LoadState) :=
  match preparePtr decomp size s with
  | .error e => .error e
  | .ok s1 => readAt size s1

/-- The loop of `LoadArchive::load_binary`, trip count explicit (the loop
guard is the same `size > BLOCK_BYTES` as on the save side): while trips
remain, advance to the next block and copy a full block; at trip count 0,
advance if needed and copy the remainder. -/
def loadBinLoop (decomp : List Nat → List Nat) :
    Nat → Nat → LoadState → Except LoadErr (List Nat × LoadState)
  | 0, size, s => loadBytes decomp size s
  | k + 1, size, s =>
    match loadBytes decomp BLOCK_BYTES s with
    | .error e => .error e
    | .ok (chunk, s1) =>
      match loadBinLoop decomp k (size - BLOCK_BYTES) s1 with
      | .error e => .error e
      | .ok (rest, s2) => .ok (chunk ++ rest, s2)

/-- `LoadArchive::load_binary`. -/
def loadBinary (decomp : List Nat → List Nat) (size : Nat)
    (s : LoadState) : Except LoadErr (List Nat × LoadState) :=
  loadBinLoop decomp (binIters size) size s

/-- `LoadArchive::endBlock`: in the current (non-legacy) format, read one
more `size_t` and require it to be the zero sentinel. -/
def endBlockLoad (s : LoadState) : Except LoadErr Unit :=
  if s.legacy then .ok ()
  else if s.stream.length < 8 then .error .readEndFail
  else if decLE (s.stream.take 8) ≠ 0 then .error .lastBlockNotZero
  else .ok ()

/-- Replay a list of primitive operations on the load side: each `sc`
issues a `load` of the value's width, each `bin` a `load_binary` of the
blob's length, collecting the bytes obtained. -/
def runLoadOps (decomp : List Nat → List Nat) : List Op → LoadState →
    Except LoadErr (List (List Nat) × LoadState)
  | [], s => .ok ([], s)
  | .sc bs :: rest, s =>
    match loadBytes decomp bs.length s with
    | .error e => .error e
    | .ok (b, s1) =>
      match runLoadOps decomp rest s1 with
      | .error e => .error e
      | .ok (l, s2) => .ok (b :: l, s2)
  | .bin bs :: rest, s =>
    match loadBinary decomp bs.length s with
    | .error e => .error e
    | .ok (b, s1) =>
      match runLoadOps decomp rest s1 with
      | .error e => .error e
      | .ok (l, s2) => .ok (b :: l, s2)

/-- The wire types with a registered `Serializer` specialization:
fixed-width scalar primitives (char/short/int/long/... of width `w`),
enumerations (4-byte `int` on the wire), `std::vector<T>`,
`std::map<K, V>`, fixed arrays `T[N]`, binary blobs of a caller-known
length, and raw pointers. -/
inductive Ty where
  | scalarT (w : Nat)
  | enumT
  | vecT (t : Ty)
  | mapT (k v : Ty)
  | arrT (t : Ty) (n : Nat)
  | blobT (n : Nat)
  | ptrT
  deriving DecidableEq, Repr

/-- Domain values.  Sequences are represented by explicit spine
constructors (`vnil`/`vcons` for element lists, `pnil`/`pcons` for
key-value entry lists) so that all recursions are plainly structural. -/
inductive Val where
  | scalar (w n : Nat)
  | enumV (n : Nat)
  | blobV (bs : List Nat)
  | ptrV (a : Nat)
  | vnil
  | vcons (hd tl : Val)
  | pnil
  | pcons (k v tl : Val)
  | vecV (l : Val)
  | mapV (l : Val)
  | arrV (l : Val)
  deriving DecidableEq, Repr

/-- Reading of a 4-byte bit pattern as a signed `int`, for the
`operator<` used on enum map keys. -/
def toInt32 (n : Nat) : Int :=
  if n < 2 ^ 31 then (n : Int) else (n : Int) - 2 ^ 32

/-- Model of the ordering that `std::map` applies to its key type:
numeric on scalars, signed on enums, lexicographic on the container
types and the spines (matching the containers' `operator<`); `.eq` on
type combinations that have no `operator<`. -/
def valCmp (x y : Val) : Ordering :=
  match x, y with
  | .scalar _ a, .scalar _ b => compare a b
  | .enumV a, .enumV b => compare (toInt32 a) (toInt32 b)
  | .ptrV a, .ptrV b => compare a b
  | .vecV a, .vecV b => valCmp a b
  | .mapV a, .mapV b => valCmp a b
  | .arrV a, .arrV b => valCmp a b
  | .vnil, .vnil => .eq
  | .vnil, .vcons _ _ => .lt
  | .vcons _ _, .vnil => .gt
  | .vcons a as, .vcons b bs => (valCmp a b).then (valCmp as bs)
  | .pnil, .pnil => .eq
  | .pnil, .pcons _ _ _ => .lt
  | .pcons _ _ _, .pnil => .gt
  | .pcons k v tl, .pcons k2 v2 tl2 =>
    ((valCmp k k2).then (valCmp v v2)).then (valCmp tl tl2)
  | _, _ => .eq

/-- The strict order `operator<` on key values. -/
def valLt (x y : Val) : Bool := valCmp x y == .lt

/-- `map_val[key] = value` on the sorted entry spine: insert the new key
in order, or overwrite the mapped value of an equivalent key. -/
def mapInsert (k v : Val) : Val → Val
  | .pnil => .pcons k v .pnil
  | .pcons k2 v2 tl =>
    if valLt k k2 then .pcons k v (.pcons k2 v2 tl)
    else if valLt k2 k then .pcons k2 v2 (mapInsert k v tl)
    else .pcons k2 v tl
  | x => x

/-- Spine length of an element list. -/
def vlen : Val → Nat
  | .vcons _ tl => vlen tl + 1
  | _ => 0

/-- Spine length of an entry list. -/
def plen : Val → Nat
  | .pcons _ _ tl => plen tl + 1
  | _ => 0

/-- `k` is strictly below every key of the entry spine, in both
directions of the comparator (`std::map`'s strict-order invariant). -/
def keyBelow (k : Val) : Val → Bool
  | .pcons k2 _ tl => valLt k k2 && !valLt k2 k && keyBelow k tl
  | _ => true

/-- The entry spine is strictly sorted by key. -/
def sortedKeys : Val → Bool
  | .pcons k _ tl => keyBelow k tl && sortedKeys tl
  | _ => true

/-- The element width of a type valid as a fixed-array element (raw
`memcpy` of a `T[N]` is elementwise only for these leaf types). -/
def leafWidth : Ty → Option Nat
  | .scalarT w => some w
  | .enumT => some 4
  | _ => none

/-- The element width of a fixed-array element type, defaulted. -/
def arrWidth (t : Ty) : Nat :=
  match leafWidth t with
  | some w => w
  | none => 0

/-- The raw memory image of a scalar leaf. -/
def rawBytes : Val → List Nat
  | .scalar w n => encLE w n
  | .enumV n => encLE 4 n
  | _ => []

/-- The raw memory image of an array's element spine. -/
def rawSpine : Val → List Nat
  | .vcons a tl => rawBytes a ++ rawSpine tl
  | _ => []

mutual

/-- Well-typedness `wt t v`, together with `wtElems`/`wtEntries` for the
spines: shapes match, numeric payloads fit their width, array elements
are leaves whose total size passes the `assert(sizeof(val) < BLOCK_BYTES)`,
sequence lengths fit the `size_t` count prefix, and map spines are
strictly sorted by key. -/
def wt : Ty → Val → Bool
  | .scalarT w, .scalar w2 n =>
    w == w2 && decide (0 < w) && decide (w < BLOCK_BYTES) && decide (n < 256 ^ w)
  | .enumT, .enumV n => decide (n < 2 ^ 32)
  | .vecT t, .vecV l => wtElems t l && decide (vlen l < 2 ^ 64)
  | .mapT k v, .mapV l =>
    wtEntries k v l && decide (plen l < 2 ^ 64) && sortedKeys l
  | .arrT t n, .arrV l =>
    (leafWidth t).isSome && wtElems t l && vlen l == n && decide (0 < n) &&
      decide (n * arrWidth t < BLOCK_BYTES)
  | .blobT n, .blobV bs => bs.length == n && bs.all (· < 256)
  | .ptrT, .ptrV _ => true
  | _, _ => false

/-- Spine of well-typed elements. -/
def wtElems (t : Ty) : Val → Bool
  | .vnil => true
  | .vcons a tl => wt t a && wtElems t tl
  | _ => false

/-- Spine of well-typed entries. -/
def wtEntries (k v : Ty) : Val → Bool
  | .pnil => true
  | .pcons a b tl => wt k a && wt v b && wtEntries k v tl
  | _ => false

end

/-- Types whose values contain no raw-pointer field. -/
def noPtrTy : Ty → Bool
  | .ptrT => false
  | .vecT t => noPtrTy t
  | .mapT k v => noPtrTy k && noPtrTy v
  | .arrT t _ => noPtrTy t
  | _ => true

/-- Values containing no raw-pointer field. -/
def noPtrV : Val → Bool
  | .ptrV _ => false
  | .vecV l => noPtrV l
  | .mapV l => noPtrV l
  | .arrV l => noPtrV l
  | .vcons a tl => noPtrV a && noPtrV tl
  | .pcons k v tl => noPtrV k && noPtrV v && noPtrV tl
  | _ => true

/-- `n` copies of a value, as an element spine (vector `resize` fill). -/
def vrep : Nat → Val → Val
  | 0, _ => .vnil
  | n + 1, x => .vcons x (vrep n x)

/-- The value-initialized object of each type (what `T()` produces for
the types in the registry; `resize` fills new vector slots with it and
the map loader default-constructs its key/value locals). -/
def defaultVal : Ty → Val
  | .scalarT w => .scalar w 0
  | .enumT => .enumV 0
  | .vecT _ => .vecV .vnil
  | .mapT _ _ => .mapV .pnil
  | .arrT t n => .arrV (vrep n (defaultVal t))
  | .blobT n => .blobV (List.replicate n 0)
  | .ptrT => .ptrV 0

/-- First `n` elements of a spine. -/
def vtake : Nat → Val → Val
  | 0, _ => .vnil
  | n + 1, .vcons a tl => .vcons a (vtake n tl)
  | _ + 1, _ => .vnil

/-- Head of an element spine (only queried on non-empty spines). -/
def vhead : Val → Val
  | .vcons a _ => a
  | _ => .vnil

/-- Tail of an element spine. -/
def vtail : Val → Val
  | .vcons _ tl => tl
  | x => x

/-- Spine append. -/
def vappend : Val → Val → Val
  | .vcons a tl, y => .vcons a (vappend tl y)
  | _, y => y

/-- `val.resize(size)`: keep the first `size` old elements, fill the rest
with value-initialized ones. -/
def vresize (l : Val) (n : Nat) (t : Ty) : Val :=
  vappend (vtake n l) (vrep (n - vlen l) (defaultVal t))

/-- The element spine of a vector value. -/
def velems : Val → Val
  | .vecV l => l
  | _ => .vnil

/-- The entry spine of a map value. -/
def pents : Val → Val
  | .mapV l => l
  | _ => .pnil

/-- The primitive archive operations the `Serializer` dispatch issues for
a value: scalars and enums one raw `save`, vectors and maps a `size_t`
count then their elements in spine order (map iteration order is the
sorted entry spine), fixed arrays a single raw `save` of the whole array
image, blobs one `save_binary`, pointers nothing.  On a spine the result
is the concatenation over its elements (the serializer's loop). -/
def valOps : Val → List Op
  | .scalar w n => [.sc (encLE w n)]
  | .enumV n => [.sc (encLE 4 n)]
  | .blobV bs => [.bin bs]
  | .ptrV _ => []
  | .vecV l => .sc (encLE 8 (vlen l)) :: valOps l
  | .mapV l => .sc (encLE 8 (plen l)) :: valOps l
  | .arrV l => [.sc (rawSpine l)]
  | .vnil => []
  | .vcons a tl => valOps a ++ valOps tl
  | .pnil => []
  | .pcons k v tl => valOps k ++ valOps v ++ valOps tl

/-- The `Serializer<T>::save` dispatch running against a `SaveArchive`:
each case matches the corresponding specialization in the source
(`Serializer<std::vector<T>>`, `Serializer<std::map<K,V>>`,
`Serializer<T*>` — whose `SaveArchive::save(T* const&)` target is a
no-op —, `Serializer<T[N]>`, and the `binary_object` serializer); the
spine cases are the element loops of the vector and map serializers. -/
def saveValArch (comp : List Nat → List Nat) :
    Val → SaveState → Except SaveErr SaveState
  | .scalar w n, s => saveBytes comp (encLE w n) s
  | .enumV n, s => saveBytes comp (encLE 4 n) s
  | .blobV bs, s => saveBinary comp bs s
  | .ptrV _, s => .ok s
  | .vecV l, s =>
    match saveBytes comp (encLE 8 (vlen l)) s with
    | .error e => .error e
    | .ok s1 => saveValArch comp l s1
  | .mapV l, s =>
    match saveBytes comp (encLE 8 (plen l)) s with
    | .error e => .error e
    | .ok s1 => saveValArch comp l s1
  | .arrV l, s => saveBytes comp (rawSpine l) s
  | .vnil, s => .ok s
  | .vcons a tl, s =>
    match saveValArch comp a s with
    | .error e => .error e
    | .ok s1 => saveValArch comp tl s1
  | .pnil, s => .ok s
  | .pcons k v tl, s =>
    match saveValArch comp k s with
    | .error e => .error e
    | .ok s1 =>
      match saveValArch comp v s1 with
      | .error e => .error e
      | .ok s2 => saveValArch comp tl s2

/-- The same dispatch running against a `SizeArchive`: each scalar save
adds `sizeof(val)`, each binary save adds the byte length.  `SizeArchive`
declares no pointer overload, so a pointer field falls to the generic
`save(const T&)` and adds `sizeof(T*)` = 8. -/
def sizeVal : Val → Nat
  | .scalar w _ => w
  | .enumV _ => 4
  | .blobV bs => bs.length
  | .ptrV _ => 8
  | .vecV l => 8 + sizeVal l
  | .mapV l => 8 + sizeVal l
  | .arrV l => (rawSpine l).length
  | .vnil => 0
  | .vcons a tl => sizeVal a + sizeVal tl
  | .pnil => 0
  | .pcons k v tl => sizeVal k + sizeVal v + sizeVal tl

/-- Total bytes the operations `memcpy` into the staging blocks
(the framing prefixes and the file header are not part of this). -/
def opsCopied (ops : List Op) : Nat :=
  (ops.map fun op => op.payload.length).sum

/-- Bytes the `SaveArchive` path copies into its blocks for a value. -/
def totalCopied (v : Val) : Nat := opsCopied (valOps v)

/-- The element-loading loop of `Serializer<std::vector<T>>::load`, with
the element loader passed in: load `n` elements in place over the resized
spine of priors. -/
def loadElemsF (f : Val → LoadState → Except LoadErr (Val × LoadState)) :
    Nat → Val → LoadState → Except LoadErr (Val × LoadState)
  | 0, _, s => .ok (.vnil, s)
  | n + 1, priors, s =>
    match f (vhead priors) s with
    | .error e => .error e
    | .ok (v, s1) =>
      match loadElemsF f n (vtail priors) s1 with
      | .error e => .error e
      | .ok (l, s2) => .ok (.vcons v l, s2)

/-- The entry-loading loop of `Serializer<std::map<K,V>>::load`: `n`
times, read a key and a value into default-constructed locals and insert
them (`map_val[key] = value`) into the accumulating map, which starts as
the prior map (the loader never clears it). -/
def loadEntriesF (fk fv : Val → LoadState → Except LoadErr (Val × LoadState))
    (dk dv : Val) :
    Nat → Val → LoadState → Except LoadErr (Val × LoadState)
  | 0, acc, s => .ok (acc, s)
  | n + 1, acc, s =>
    match fk dk s with
    | .error e => .error e
    | .ok (kv, s1) =>
      match fv dv s1 with
      | .error e => .error e
      | .ok (vv, s2) => loadEntriesF fk fv dk dv n (mapInsert kv vv acc) s2

/-- One decoded array leaf (the typed view of `w` raw bytes). -/
def decodeLeaf (t : Ty) (bs : List Nat) : Val :=
  match t with
  | .scalarT w => .scalar w (decLE bs)
  | .enumT => .enumV (decLE bs)
  | _ => .ptrV 0

/-- Decode `n` leaves of width `w` from a raw array image. -/
def decodeArr (t : Ty) (w : Nat) : Nat → List Nat → Val
  | 0, _ => .vnil
  | n + 1, bs => .vcons (decodeLeaf t (bs.take w)) (decodeArr t w n (bs.drop w))

/-- The `Serializer<T>::load` dispatch running against a `LoadArchive`.
`prior` is the object being loaded into: only the pointer case (a no-op
that leaves the field untouched), the vector case (`resize` keeps old
elements) and the map case (entries are inserted into the existing map)
depend on it. -/
def loadValArch (decomp : List Nat → List Nat) :
    Ty → Val → LoadState → Except LoadErr (Val × LoadState)
  | .scalarT w, _, s =>
    match loadBytes decomp w s with
    | .error e => .error e
    | .ok (bs, s1) => .ok (.scalar w (decLE bs), s1)
  | .enumT, _, s =>
    match loadBytes decomp 4 s with
    | .error e => .error e
    | .ok (bs, s1) => .ok (.enumV (decLE bs), s1)
  | .vecT t, prior, s =>
    match loadBytes decomp 8 s with
    | .error e => .error e
    | .ok (cb, s1) =>
      match loadElemsF (fun p s2 => loadValArch decomp t p s2) (decLE cb)
          (vresize (velems prior) (decLE cb) t) s1 with
      | .error e => .error e
      | .ok (l, s2) => .ok (.vecV l, s2)
  | .mapT k v, prior, s =>
    match loadBytes decomp 8 s with
    | .error e => .error e
    | .ok (cb, s1) =>
      match loadEntriesF (fun p s2 => loadValArch decomp k p s2)
          (fun p s2 => loadValArch decomp v p s2) (defaultVal k)
          (defaultVal v) (decLE cb) (pents prior) s1 with
      | .error e => .error e
      | .ok (l, s2) => .ok (.mapV l, s2)
  | .arrT t n, _, s =>
    match loadBytes decomp (n * arrWidth t) s with
    | .error e => .error e
    | .ok (bs, s1) => .ok (.arrV (decodeArr t (arrWidth t) n bs), s1)
  | .blobT n, _, s =>
    match loadBinary decomp n s with
    | .error e => .error e
    | .ok (bs, s1) => .ok (.blobV bs, s1)
  | .ptrT, prior, s => .ok (prior, s)

/-- A whole save: construct the archive, save the `IndexHeaderStruct`
(its 80 raw bytes are the first thing every caller saves), save the
value, destruct (final flush and sentinel).  Returns the byte stream. -/
def fullSave (comp : List Nat → List Nat) (h0 : IndexHeaderStruct)
    (v : Val) : Except SaveErr (List Nat) :=
  match saveBytes comp (encodeHeader h0) ⟨[], true, []⟩ with
  | .error e => .error e
  | .ok s1 =>
    match saveValArch comp v s1 with
    | .error e => .error e
    | .ok s2 => saveClose comp s2

/-- A whole load: construct the archive (`initBlock`), read back the
header's 80 bytes, load the value of type `t` into a value-initialized
object, destruct (`endBlock` checks the sentinel).  Returns the value. -/
def fullLoad (decomp : List Nat → List Nat) (t : Ty) (stream : List Nat) :
    Except LoadErr Val :=
  match initBlock decomp stream with
  | .error e => .error e
  | .ok s0 =>
    match loadBytes decomp headSz s0 with
    | .error e => .error e
    | .ok (_, s1) =>
      match loadValArch decomp t (defaultVal t) s1 with
      | .error e => .error e
      | .ok (v, s2) =>
        match endBlockLoad s2 with
        | .error e => .error e
        | .ok _ => .ok v

/-- Save-or-load failure, for the composed round trip. -/
inductive RunErr where
  | save (e : SaveErr)
  | load (e : LoadErr)
  deriving DecidableEq, Repr

/-- Round trip: the stream produced by saving `v` (with header `h0`),
loaded back at type `t`. -/
def endToEnd (comp decomp : List Nat → List Nat) (h0 : IndexHeaderStruct)
    (t : Ty) (v : Val) : Except RunErr Val :=
  match fullSave comp h0 v with
  | .error e => .error (.save e)
  | .ok stream =>
    match fullLoad decomp t stream with
    | .error e => .error (.load e)
    | .ok w => .ok w

/-- Whether a load initialization took the legacy decode path. -/
def wentLegacy (r : Except LoadErr LoadState) : Bool :=
  match r with
  | .ok s => s.legacy
  | .error _ => false

theorem encLE_length (w n : Nat) : (encLE w n).length = w := by
  induction w generalizing n with
  | zero => rfl
  | succ k ih => simp [encLE, ih]

theorem decLE_encLE (w n : Nat) : decLE (encLE w n) = n % 256 ^ w := by
  induction w generalizing n with
  | zero => simp [encLE, decLE, Nat.mod_one]
  | succ k ih =>
    show n % 256 % 256 + 256 * decLE (encLE k (n / 256)) = n % 256 ^ (k + 1)
    rw [Nat.mod_mod_of_dvd n (dvd_refl 256), ih]
    conv_rhs => rw [Nat.pow_succ, Nat.mul_comm, Nat.mod_mul]

theorem decLE_encLE_of_lt {w n : Nat} (h : n < 256 ^ w) :
    decLE (encLE w n) = n := by
  rw [decLE_encLE, Nat.mod_eq_of_lt h]

theorem decLE_encLE64 {n : Nat} (h : n < 2 ^ 64) : decLE (encLE 8 n) = n :=
  decLE_encLE_of_lt (by norm_num at h ⊢; omega)

theorem take_append_len {a b : List Nat} {n : Nat} (h : a.length = n) :
    (a ++ b).take n = a := List.take_left' h

theorem drop_append_len {a b : List Nat} {n : Nat} (h : a.length = n) :
    (a ++ b).drop n = b := List.drop_left' h

/-- The header image regrouped around offset 64 (the start of the
`compression` field). -/
theorem encodeHeader_split (h : IndexHeaderStruct) : encodeHeader h =
    (h.signature ++ h.version ++ encLE 4 h.data_type ++
      encLE 4 h.index_type ++ encLE 8 h.rows ++ encLE 8 h.cols) ++
    (encLE 8 h.compression ++ encLE 8 h.first_block_size) := by
  simp [encodeHeader, List.append_assoc]

theorem encodeHeader_pre64_length (h : IndexHeaderStruct) (hw : HdrWF h) :
    (h.signature ++ h.version ++ encLE 4 h.data_type ++
      encLE 4 h.index_type ++ encLE 8 h.rows ++ encLE 8 h.cols).length = 64 := by
  obtain ⟨h1, -, h3, -, -, -, -, -, -, -⟩ := hw
  simp [encLE_length, h1, h3]

theorem encodeHeader_length (h : IndexHeaderStruct) (hw : HdrWF h) :
    (encodeHeader h).length = headSz := by
  obtain ⟨h1, -, h3, -, -, -, -, -, -, -⟩ := hw
  simp [encodeHeader, encLE_length, h1, h3, headSz]

theorem encodeHeader_take_64 (h : IndexHeaderStruct) (hw : HdrWF h) :
    (encodeHeader h).take 64 =
      h.signature ++ h.version ++ encLE 4 h.data_type ++
        encLE 4 h.index_type ++ encLE 8 h.rows ++ encLE 8 h.cols := by
  rw [encodeHeader_split]
  exact take_append_len (encodeHeader_pre64_length h hw)

theorem encodeHeader_drop_64 (h : IndexHeaderStruct) (hw : HdrWF h) :
    (encodeHeader h).drop 64 =
      encLE 8 h.compression ++ encLE 8 h.first_block_size := by
  rw [encodeHeader_split]
  exact drop_append_len (encodeHeader_pre64_length h hw)

theorem encodeHeader_compression_slice (h : IndexHeaderStruct)
    (hw : HdrWF h) :
    ((encodeHeader h).drop 64).take 8 = encLE 8 h.compression := by
  rw [encodeHeader_drop_64 h hw]
  exact take_append_len (encLE_length 8 _)

theorem encodeHeader_fbs_slice (h : IndexHeaderStruct) (hw : HdrWF h) :
    ((encodeHeader h).drop 72).take 8 = encLE 8 h.first_block_size := by
  have h72 : (encodeHeader h).drop 72 = encLE 8 h.first_block_size := by
    have : (encodeHeader h).drop 72 = ((encodeHeader h).drop 64).drop 8 := by
      rw [List.drop_drop]
    rw [this, encodeHeader_drop_64 h hw, drop_append_len (encLE_length 8 _)]
  rw [h72]
  exact List.take_of_length_le (le_of_eq (encLE_length 8 _))

theorem encodeHeader_get13 (h : IndexHeaderStruct) (hw : HdrWF h) :
    (encodeHeader h)[13]? = h.signature[13]? := by
  obtain ⟨h1, -, -, -, -, -, -, -, -, -⟩ := hw
  rw [encodeHeader]
  simp only [List.append_assoc]
  rw [List.getElem?_append_left (by omega)]

theorem encodeHeader_get15 (h : IndexHeaderStruct) (hw : HdrWF h) :
    (encodeHeader h)[15]? = h.signature[15]? := by
  obtain ⟨h1, -, -, -, -, -, -, -, -, -⟩ := hw
  rw [encodeHeader]
  simp only [List.append_assoc]
  rw [List.getElem?_append_left (by omega)]

/-- Patching the encoded header is encoding the patched header. -/
theorem patchHdr_encodeHeader (h : IndexHeaderStruct) (hw : HdrWF h)
    (c : Nat) :
    patchHdr (encodeHeader h) c =
      encodeHeader
        { h with compression := 1, first_block_size := c } := by
  rw [patchHdr, encodeHeader_take_64 h hw, encodeHeader_split]
  simp [List.append_assoc]

theorem HdrWF_patched (h : IndexHeaderStruct) (hw : HdrWF h) {c : Nat}
    (hc : c < 2 ^ 64) :
    HdrWF { h with compression := 1, first_block_size := c } := by
  obtain ⟨h1, h2, h3, h4, h5, h6, h7, h8, -, -⟩ := hw
  exact ⟨h1, h2, h3, h4, h5, h6, h7, h8, by norm_num, hc⟩

/-- A concrete executable stand-in for the opaque block-compression
primitive (it prepends one byte, so its output is never empty), and its
inverse; used to instantiate the `comp`/`decomp` parameters on concrete
runs. -/
def compX : List Nat → List Nat := fun b => 7 :: b

/-- Inverse of `compX`. -/
def decompX : List Nat → List Nat := fun b => b.tail

/-- A well-formed header with a non-legacy signature and zero
compression fields, as the save path requires. -/
def hdrA : IndexHeaderStruct :=
  ⟨List.replicate 24 65, List.replicate 16 66, 1, 2, 3, 4, 0, 0⟩

/-- A header whose signature carries the legacy markers
(byte 13 = `'1'`, byte 15 = `'0'`), compression tag 1, and a
`first_block_size` declaring 1 uncompressed payload byte. -/
def hdrLegacy1 : IndexHeaderStruct :=
  ⟨List.replicate 13 65 ++ [49, 65, 48] ++ List.replicate 8 65,
    List.replicate 16 66, 1, 2, 3, 4, 1, 81⟩

/-- Like `hdrLegacy1` but with the unsupported compression tag 5. -/
def hdrLegacy5 : IndexHeaderStruct :=
  ⟨List.replicate 13 65 ++ [49, 65, 48] ++ List.replicate 8 65,
    List.replicate 16 66, 1, 2, 3, 4, 5, 81⟩

/-- A current-format header (no legacy markers) whose compression tag is
the unsupported value 5, first block 2 compressed bytes. -/
def hdrFlag5 : IndexHeaderStruct :=
  ⟨List.replicate 24 65, List.replicate 16 66, 1, 2, 3, 4, 5, 2⟩

/-- A current-format header with the same version field as `hdrLegacy1`,
compression tag 1, first block 2 compressed bytes. -/
def hdrPlain1 : IndexHeaderStruct :=
  ⟨List.replicate 24 65, List.replicate 16 66, 1, 2, 3, 4, 1, 2⟩

/-- C7: pointer fields are skipped on both directions:
`SaveArchive::save(T* const&)` emits zero bytes and leaves the archive
state (buffer, flag, output) unchanged, and `LoadArchive::load(T*&)`
consumes zero bytes, leaves the archive state unchanged, and leaves the
in-memory pointer value exactly as it was. -/
theorem c7_ptr_noop :
    (∀ (comp : List Nat → List Nat) (a : Nat) (s : SaveState),
      saveValArch comp (.ptrV a) s = .ok s) ∧
    (∀ (decomp : List Nat → List Nat) (prior : Val) (ls : LoadState),
      loadValArch decomp .ptrT prior ls = .ok (prior, ls)) :=
  ⟨fun _ _ _ => rfl, fun _ _ _ => rfl⟩

/-- C8: a block whose compressed-length prefix is at or above
`LZ4_COMPRESSBOUND(BLOCK_BYTES)` — the exact capacity of the load-side
compressed staging buffer — is rejected with the distinct
"Requested block size too large" error uniformly in the stream contents
(so before any bytes are read), and any accepted block reads at most
that capacity into the staging buffer. -/
theorem c8_block_too_large :
    (∀ (decomp : List Nat → List Nat) (compSz : Nat) (stream : List Nat),
      lz4CompressBound BLOCK_BYTES ≤ compSz →
      loadBlock decomp compSz stream = .error .blockTooLarge) ∧
    (∀ (decomp : List Nat → List Nat) (compSz : Nat)
      (stream blk rest : List Nat),
      loadBlock decomp compSz stream = .ok (blk, rest) →
      compSz < lz4CompressBound BLOCK_BYTES ∧
      (stream.take compSz).length ≤ lz4CompressBound BLOCK_BYTES) := by
  constructor
  · intro decomp compSz stream h
    unfold loadBlock
    rw [if_pos (by omega)]
  · intro decomp compSz stream blk rest h
    unfold loadBlock at h
    by_cases hc : compSz ≥ lz4CompressBound BLOCK_BYTES
    · rw [if_pos hc] at h
      cases h
    · refine ⟨by omega, ?_⟩
      rw [List.length_take]
      exact le_trans (Nat.min_le_left _ _) (by omega)

/-- Witness for C8 at concrete inputs: the exact bound is rejected on an
empty stream, and a 1-byte block is accepted within capacity. -/
theorem c8_witness :
    loadBlock (fun b => b) (lz4CompressBound BLOCK_BYTES) [] =
      .error .blockTooLarge ∧
    (1 < lz4CompressBound BLOCK_BYTES ∧
      (([7, 42].take 1).length ≤ lz4CompressBound BLOCK_BYTES)) :=
  ⟨c8_block_too_large.1 _ _ _ (le_refl _),
    c8_block_too_large.2 (fun b => b) 1 [7, 42] [7] [42] (by rfl)⟩

theorem opsCopied_append (a b : List Op) :
    opsCopied (a ++ b) = opsCopied a + opsCopied b := by
  simp [opsCopied]

/-- C2 (amended): for every pointer-free value, the running total the
`SizeArchive` accumulates equals the exact number of bytes the
`SaveArchive` path copies into its in-memory blocks, framing and header
overhead excluded.  (For pointer fields the two disagree: see the
counterexample.) -/
theorem totalCopied_vcons (a tl : Val) :
    totalCopied (.vcons a tl) = totalCopied a + totalCopied tl := by
  rw [totalCopied, totalCopied, totalCopied, valOps, opsCopied_append]

theorem totalCopied_pcons (k v tl : Val) :
    totalCopied (.pcons k v tl) =
      totalCopied k + totalCopied v + totalCopied tl := by
  rw [totalCopied, totalCopied, totalCopied, totalCopied, valOps,
    opsCopied_append, opsCopied_append]

theorem totalCopied_vecV (l : Val) :
    totalCopied (.vecV l) = 8 + totalCopied l := by
  rw [totalCopied, totalCopied, valOps]
  simp [opsCopied, Op.payload, encLE_length]

theorem totalCopied_mapV (l : Val) :
    totalCopied (.mapV l) = 8 + totalCopied l := by
  rw [totalCopied, totalCopied, valOps]
  simp [opsCopied, Op.payload, encLE_length]

theorem c2_size_agreement (v : Val) (hp : noPtrV v = true) :
    sizeVal v = totalCopied v := by
  induction v with
  | scalar w n =>
    simp [sizeVal, totalCopied, valOps, opsCopied, Op.payload, encLE_length]
  | enumV n =>
    simp [sizeVal, totalCopied, valOps, opsCopied, Op.payload, encLE_length]
  | blobV bs => simp [sizeVal, totalCopied, valOps, opsCopied, Op.payload]
  | ptrV a => simp [noPtrV] at hp
  | vnil => simp [sizeVal, totalCopied, valOps, opsCopied]
  | vcons a tl iha ihtl =>
    rw [noPtrV] at hp
    simp only [Bool.and_eq_true] at hp
    rw [totalCopied_vcons, ← iha hp.1, ← ihtl hp.2, sizeVal]
  | pnil => simp [sizeVal, totalCopied, valOps, opsCopied]
  | pcons k v tl ihk ihv ihtl =>
    rw [noPtrV] at hp
    simp only [Bool.and_eq_true] at hp
    rw [totalCopied_pcons, ← ihk hp.1.1, ← ihv hp.1.2, ← ihtl hp.2, sizeVal]
  | vecV l ih =>
    rw [noPtrV] at hp
    rw [totalCopied_vecV, ← ih hp, sizeVal]
  | mapV l ih =>
    rw [noPtrV] at hp
    rw [totalCopied_mapV, ← ih hp, sizeVal]
  | arrV l ih =>
    simp [sizeVal, totalCopied, valOps, opsCopied, Op.payload]

/-- Witness for C2 at a concrete pointer-free value. -/
theorem c2_witness :
    noPtrV (.vecV (.vcons (.scalar 4 9) .vnil)) = true ∧
    sizeVal (.vecV (.vcons (.scalar 4 9) .vnil)) =
      totalCopied (.vecV (.vcons (.scalar 4 9) .vnil)) :=
  ⟨rfl, c2_size_agreement _ rfl⟩

/-- C2 counterexample: a pointer value (a registered, well-typed wire
value) is counted as `sizeof(T*)` = 8 bytes by the `SizeArchive` — its
generic `save(const T&)` has no pointer overload — while the
`SaveArchive` copies zero bytes for it, so the claimed equality fails. -/
theorem c2_counterexample :
    wt .ptrT (.ptrV 0) = true ∧ sizeVal (.ptrV 0) = 8 ∧
    totalCopied (.ptrV 0) = 0 ∧ sizeVal (.ptrV 0) ≠ totalCopied (.ptrV 0) :=
  ⟨rfl, rfl, rfl, by decide⟩

theorem getElem?_take_headSz (stream : List Nat) {i : Nat} (hi : i < headSz) :
    (stream.take headSz)[i]? = stream[i]? :=
  List.getElem?_take_of_lt hi

/-- C4 (amended): the legacy decode path rejects a compression tag other
than 1 with the distinct "compression type not supported" error, and it
does so uniformly in the decompression primitive — i.e. before any
decompression is attempted.  The current-format path never performs this
check (see the counterexample). -/
theorem c4_legacy_flag (decomp : List Nat → List Nat) (stream : List Nat)
    (hlen : headSz ≤ stream.length)
    (hsig : stream[13]? = some 49 ∧ stream[15]? = some 48)
    (hflag : decLE (((stream.take headSz).drop 64).take 8) ≠ 1) :
    initBlock decomp stream = .error .compressionNotSupported := by
  have hlen80 : 80 ≤ stream.length := hlen
  unfold initBlock
  rw [if_neg (by omega)]
  rw [getElem?_take_headSz stream (by decide),
      getElem?_take_headSz stream (by decide)]
  rw [if_pos hsig]
  unfold decompressAndLoadV10
  rw [if_neg (by omega), if_pos hflag]

/-- Witness for C4 at a concrete legacy stream with compression tag 5. -/
theorem c4_witness :
    initBlock decompX (encodeHeader hdrLegacy5 ++ [7, 42]) =
      .error .compressionNotSupported :=
  c4_legacy_flag decompX _ (by decide) (by constructor <;> rfl) (by decide)

/-- C4 counterexample: a complete current-format stream whose header
stores the unsupported compression tag 5 — the whole load (header, one
scalar, sentinel) succeeds instead of failing with the "compression type
not supported" error, because only the legacy path inspects the tag. -/
theorem c4_counterexample :
    decLE ((((encodeHeader hdrFlag5 ++ [7, 42] ++ encLE 8 0).take
      headSz).drop 64).take 8) = 5 ∧
    fullLoad decompX (.scalarT 1)
      (encodeHeader hdrFlag5 ++ [7, 42] ++ encLE 8 0) = .ok (.scalar 1 42) :=
  ⟨by rfl, by rfl⟩

/-- C3 (amended): at load initialization the legacy-vs-current decision
is made by inspecting bytes 13 and 15 of the header's signature field
(not the version field): when they are `'1'` and `'0'` the stream is
repositioned to its start and the whole remainder is decoded by the
legacy procedure (whose resulting archive state is in legacy mode with
the entire stream consumed); otherwise the current block-framed decode
proceeds (its resulting state is not in legacy mode). -/
theorem c3_legacy_detection (decomp : List Nat → List Nat)
    (stream : List Nat) (hlen : headSz ≤ stream.length) :
    ((stream[13]? = some 49 ∧ stream[15]? = some 48) →
      initBlock decomp stream = decompressAndLoadV10 decomp stream ∧
      ∀ s, initBlock decomp stream = .ok s →
        s.legacy = true ∧ s.stream = []) ∧
    (¬(stream[13]? = some 49 ∧ stream[15]? = some 48) →
      ∀ s, initBlock decomp stream = .ok s → s.legacy = false) := by
  have hinit : initBlock decomp stream =
      if stream[13]? = some 49 ∧ stream[15]? = some 48 then
        decompressAndLoadV10 decomp stream
      else
        match loadBlock decomp (decLE (((stream.take headSz).drop 72).take 8))
            (stream.drop headSz) with
        | .error e => .error e
        | .ok (body, rest) => .ok ⟨stream.take headSz ++ body, 0, rest, false⟩ := by
    have hlen80 : 80 ≤ stream.length := hlen
    unfold initBlock
    rw [if_neg (by omega)]
    rw [getElem?_take_headSz stream (by decide),
        getElem?_take_headSz stream (by decide)]
  constructor
  · intro hm
    rw [hinit, if_pos hm]
    refine ⟨rfl, ?_⟩
    intro s hs
    have hlen80 : 80 ≤ stream.length := hlen
    unfold decompressAndLoadV10 at hs
    rw [if_neg (by omega)] at hs
    by_cases hflag :
        decLE (((stream.take headSz).drop 64).take 8) ≠ 1
    · rw [if_pos hflag] at hs
      cases hs
    · rw [if_neg hflag] at hs
      by_cases hsz : (decomp ((stream.drop headSz).take
          (stream.length - headSz))).length ≠
          sub64 (decLE (((stream.take headSz).drop 72).take 8)) headSz
      · rw [if_pos hsz] at hs
        cases hs
      · rw [if_neg hsz] at hs
        cases hs
        exact ⟨rfl, rfl⟩
  · intro hm s hs
    rw [hinit, if_neg hm] at hs
    cases hb : loadBlock decomp (decLE (((stream.take headSz).drop 72).take 8))
        (stream.drop headSz) with
    | error e => rw [hb] at hs; cases hs
    | ok p =>
      rw [hb] at hs
      cases hs
      rfl

/-- Witness for C3 at a concrete marker-bearing stream. -/
theorem c3_witness :
    initBlock decompX (encodeHeader hdrLegacy1 ++ [7, 42]) =
      decompressAndLoadV10 decompX (encodeHeader hdrLegacy1 ++ [7, 42]) :=
  ((c3_legacy_detection decompX _ (by decide)).1 (by constructor <;> rfl)).1

/-- C3 counterexample: two loadable streams with byte-identical version
fields but different signature bytes take different decode paths, so the
decision is not a function of the version field, contrary to the claim;
the bytes actually inspected are signature bytes 13 and 15. -/
theorem c3_counterexample :
    hdrLegacy1.version = hdrPlain1.version ∧
    wentLegacy (initBlock decompX (encodeHeader hdrLegacy1 ++ [7, 42])) =
      true ∧
    wentLegacy (initBlock decompX (encodeHeader hdrPlain1 ++ [7, 42])) =
      false :=
  ⟨rfl, by rfl, by rfl⟩

theorem pow_256_8 : (256 : Nat) ^ 8 = 2 ^ 64 := by norm_num

/-- C5: the save path's close (`~SaveArchive`, via `endBlock`) appends a
single zero-valued `size_t` length prefix after the last flushed block;
the current-format load close (`LoadArchive::endBlock`) reads one more
`size_t` and (a) fails with a read error when fewer than 8 bytes remain
(a stream truncated immediately before its sentinel), (b) fails with the
"last block not zero length" error when the value there is non-zero, and
(c) succeeds exactly on a zero sentinel. -/
theorem c5_sentinel :
    (∀ (comp : List Nat → List Nat) (s : SaveState) (out : List Nat),
      saveClose comp s = .ok out → ∃ pre, out = pre ++ encLE 8 0) ∧
    (∀ ls : LoadState, ls.legacy = false → ls.stream.length < 8 →
      endBlockLoad ls = .error .readEndFail) ∧
    (∀ (ls : LoadState) (k : Nat) (rest : List Nat), ls.legacy = false →
      k % 2 ^ 64 ≠ 0 → ls.stream = encLE 8 k ++ rest →
      endBlockLoad ls = .error .lastBlockNotZero) ∧
    (∀ (ls : LoadState) (rest : List Nat), ls.legacy = false →
      ls.stream = encLE 8 0 ++ rest → endBlockLoad ls = .ok ()) := by
  have hdec : ∀ (k : Nat) (rest : List Nat),
      decLE ((encLE 8 k ++ rest).take 8) = k % 2 ^ 64 := by
    intro k rest
    rw [take_append_len (encLE_length 8 k), decLE_encLE, pow_256_8]
  refine ⟨?_, ?_, ?_, ?_⟩
  · intro comp s out h
    unfold saveClose at h
    cases hf : flushBlock comp s with
    | error e => rw [hf] at h; cases h
    | ok s1 =>
      rw [hf] at h
      cases h
      exact ⟨s1.out, rfl⟩
  · intro ls hleg hshort
    unfold endBlockLoad
    rw [hleg]
    simp only [Bool.false_eq_true, if_false]
    rw [if_pos hshort]
  · intro ls k rest hleg hk hstream
    unfold endBlockLoad
    rw [hleg]
    simp only [Bool.false_eq_true, if_false]
    rw [if_neg (by rw [hstream]; simp [List.length_append, encLE_length]),
      if_pos (by rw [hstream, hdec]; exact hk)]
  · intro ls rest hleg hstream
    unfold endBlockLoad
    rw [hleg]
    simp only [Bool.false_eq_true, if_false]
    rw [if_neg (by rw [hstream]; simp [List.length_append, encLE_length]),
      if_neg (by rw [hstream, hdec]; simp)]

/-- Witness for C5 at concrete states: a closed save stream ends in the
zero sentinel; a truncated, a corrupted, and a correct sentinel position
behave as stated. -/
theorem c5_witness :
    (∃ pre, ∀ out, saveClose compX ⟨[1], false, []⟩ = .ok out →
      out = pre ++ encLE 8 0) ∧
    endBlockLoad ⟨[], 0, [], false⟩ = .error .readEndFail ∧
    endBlockLoad ⟨[], 0, encLE 8 3, false⟩ = .error .lastBlockNotZero ∧
    endBlockLoad ⟨[], 0, encLE 8 0, false⟩ = .ok () := by
  refine ⟨⟨encLE 8 2 ++ [7, 1], ?_⟩, ?_, ?_, ?_⟩
  · intro out h
    have h2 : saveClose compX ⟨[1], false, []⟩ =
        .ok ((encLE 8 2 ++ [7, 1]) ++ encLE 8 0) := by rfl
    rw [h2] at h
    cases h
    rfl
  · exact c5_sentinel.2.1 ⟨[], 0, [], false⟩ rfl (by decide)
  · exact c5_sentinel.2.2.1 ⟨[], 0, encLE 8 3, false⟩ 3 [] rfl (by decide) rfl
  · exact c5_sentinel.2.2.2 ⟨[], 0, encLE 8 0, false⟩ [] rfl rfl

/-- C6: on the very first flush, the header's compression flag is
patched to 1 and its first-block-compressed-size field is set to the
compressed payload size, the patched header bytes are prepended verbatim
(uncompressed) in front of the compressed payload, and exactly
`headSz + compressed-size` bytes are appended to the output; on every
later flush an 8-byte (`sizeof(size_t)`) compressed-length prefix — not
a header — precedes the compressed bytes. -/
theorem c6_first_flush :
    (∀ (comp : List Nat → List Nat) (h : IndexHeaderStruct)
      (body : List Nat) (s : SaveState),
      HdrWF h → h.compression = 0 → s.first_block = true →
      s.buffer = encodeHeader h ++ body → comp body ≠ [] →
      (comp body).length < 2 ^ 64 →
      flushBlock comp s = .ok ⟨[], false, s.out ++
        encodeHeader
          { h with compression := 1, first_block_size := (comp body).length }
          ++ comp body⟩ ∧
      (encodeHeader
          { h with compression := 1, first_block_size := (comp body).length }
          ++ comp body).length = headSz + (comp body).length) ∧
    (∀ (comp : List Nat → List Nat) (s : SaveState),
      s.first_block = false → comp s.buffer ≠ [] →
      flushBlock comp s = .ok ⟨[], false,
        s.out ++ encLE 8 (comp s.buffer).length ++ comp s.buffer⟩ ∧
      (encLE 8 (comp s.buffer).length).length = szLen) := by
  constructor
  · intro comp h body s hwf hc0 hfb hbuf hne hlt
    have hlen : (encodeHeader h).length = headSz := encodeHeader_length h hwf
    have htake : s.buffer.take headSz = encodeHeader h := by
      rw [hbuf]; exact take_append_len hlen
    have hdropHd : s.buffer.drop headSz = body := by
      rw [hbuf]; exact drop_append_len hlen
    have hslice : (s.buffer.drop 64).take 8 = encLE 8 h.compression := by
      rw [hbuf, List.drop_append_of_le_length (by rw [hlen]; decide),
        List.take_append_of_le_length
          (by rw [List.length_drop, hlen]; decide),
        ← encodeHeader_compression_slice h hwf]
    constructor
    · unfold flushBlock
      rw [hfb]
      simp only [if_true]
      rw [if_neg (by rw [hbuf, List.length_append, hlen]; omega)]
      rw [if_neg (by
        rw [hslice, decLE_encLE, pow_256_8, hc0]
        simp)]
      rw [hdropHd,
        if_neg (by simp [List.length_eq_zero]; exact hne)]
      rw [htake, patchHdr_encodeHeader h hwf]
    · rw [List.length_append,
        encodeHeader_length _ (HdrWF_patched h hwf hlt)]
  · intro comp s hfb hne
    constructor
    · unfold flushBlock
      rw [hfb]
      simp only [Bool.false_eq_true, if_false]
      rw [if_neg (by simp [List.length_eq_zero]; exact hne)]
    · exact encLE_length 8 _

/-- Witness for C6 at a concrete first flush and a concrete later
flush. -/
theorem c6_witness :
    flushBlock compX ⟨encodeHeader hdrA ++ [9], true, []⟩ =
      .ok ⟨[], false,
        encodeHeader { hdrA with compression := 1, first_block_size := 2 }
          ++ [7, 9]⟩ ∧
    flushBlock compX ⟨[5, 6], false, [0]⟩ =
      .ok ⟨[], false, [0] ++ encLE 8 3 ++ [7, 5, 6]⟩ := by
  constructor
  · have h := (c6_first_flush.1 compX hdrA [9]
      ⟨encodeHeader hdrA ++ [9], true, []⟩ (by
        refine ⟨rfl, ?_, rfl, ?_, ?_, ?_, ?_, ?_, ?_, ?_⟩ <;> decide)
      rfl rfl rfl (by decide) (by decide)).1
    rw [h]
    rfl
  · have h := (c6_first_flush.2 compX ⟨[5, 6], false, [0]⟩ rfl
      (by decide)).1
    rw [h]
    rfl

/-- The `first_block_` flag after these blocks have been flushed. -/
def firstAfter (first : Bool) (emitted : List (List Nat)) : Bool :=
  first && emitted.isEmpty

/-- The wire image of a run of flushed blocks: when the archive is still
on its first block, the first one gets the header framing and the rest
length prefixes; otherwise all get length prefixes. -/
def emitWith (comp : List Nat → List Nat) (first : Bool)
    (blocks : List (List Nat)) : List Nat :=
  match first, blocks with
  | true, b :: rest => firstFrame comp b ++ emitFrames comp rest
  | _, _ => emitFrames comp blocks

/-- The invariant the first-block buffer satisfies once the header has
been saved into it: at least a header's worth of bytes, and the
compression field (bytes 64–71) reads zero. -/
def HdrZero (buf : List Nat) : Prop :=
  headSz ≤ buf.length ∧ decLE ((buf.drop 64).take 8) = 0

/-- `a` is an initial segment of `b`. -/
def IsLead (a b : List Nat) : Prop := ∃ t, a ++ t = b

theorem IsLead_refl (a : List Nat) : IsLead a a := ⟨[], by simp⟩

theorem IsLead_append (a t : List Nat) : IsLead a (a ++ t) := ⟨t, rfl⟩

theorem IsLead_append_of (a b t : List Nat) (h : IsLead (a ++ t) b) :
    IsLead a b := by
  obtain ⟨u, hu⟩ := h
  exact ⟨t ++ u, by rw [← hu, List.append_assoc]⟩

theorem HdrZero_append (buf bs : List Nat) (h : HdrZero buf) :
    HdrZero (buf ++ bs) := by
  obtain ⟨h1, h2⟩ := h
  have h80 : (80 : Nat) ≤ buf.length := h1
  refine ⟨?_, ?_⟩
  · show (80 : Nat) ≤ (buf ++ bs).length
    rw [List.length_append]
    omega
  · rw [List.drop_append_of_le_length (by omega),
      List.take_append_of_le_length (by rw [List.length_drop]; omega), h2]

theorem HdrZero_of_IsLead (buf fin : List Nat) (h : HdrZero buf)
    (hl : IsLead buf fin) : HdrZero fin := by
  obtain ⟨t, ht⟩ := hl
  rw [← ht]
  exact HdrZero_append buf t h

theorem emitFrames_nil (comp : List Nat → List Nat) :
    emitFrames comp [] = [] := rfl

theorem emitFrames_cons (comp : List Nat → List Nat) (b : List Nat)
    (t : List (List Nat)) :
    emitFrames comp (b :: t) =
      encLE 8 (comp b).length ++ comp b ++ emitFrames comp t := by
  simp [emitFrames]

theorem emitFrames_append (comp : List Nat → List Nat)
    (a b : List (List Nat)) :
    emitFrames comp (a ++ b) = emitFrames comp a ++ emitFrames comp b := by
  simp [emitFrames]

theorem firstAfter_append (first : Bool) (e1 e2 : List (List Nat)) :
    firstAfter (firstAfter first e1) e2 = firstAfter first (e1 ++ e2) := by
  cases first <;> cases e1 <;> simp [firstAfter]

theorem emitWith_append (comp : List Nat → List Nat) (first : Bool)
    (e1 e2 : List (List Nat)) :
    emitWith comp first e1 ++ emitWith comp (firstAfter first e1) e2 =
      emitWith comp first (e1 ++ e2) := by
  cases first with
  | false => simp [emitWith, firstAfter, emitFrames_append]
  | true =>
    cases e1 with
    | nil => simp [emitWith, firstAfter, emitFrames_nil]
    | cons b t =>
      simp [emitWith, firstAfter, emitFrames_append, List.append_assoc]

/-- Characterization of `flushBlock` on buffers satisfying the archive's
invariant: it succeeds and appends exactly the framed image of the
buffer. -/
theorem flushBlock_spec (comp : List Nat → List Nat)
    (Hc : ∀ b, comp b ≠ []) (s : SaveState)
    (hh : s.first_block = true → HdrZero s.buffer) :
    flushBlock comp s =
      .ok ⟨[], false, s.out ++ emitWith comp s.first_block [s.buffer]⟩ := by
  cases hfb : s.first_block with
  | false =>
    unfold flushBlock
    rw [hfb]
    simp only [Bool.false_eq_true, if_false]
    rw [if_neg (by rw [List.length_eq_zero]; exact Hc _)]
    simp [emitWith, emitFrames_cons, emitFrames_nil, List.append_assoc]
  | true =>
    obtain ⟨h1, h2⟩ := hh hfb
    unfold flushBlock
    rw [hfb]
    simp only [if_true]
    rw [if_neg (by omega)]
    rw [if_neg (by rw [h2]; simp)]
    rw [if_neg (by rw [List.length_eq_zero]; exact Hc _)]
    simp [emitWith, firstFrame, emitFrames_nil, List.append_assoc]

/-- `save` when the value fits in the active block: no flush, append. -/
theorem saveBytes_noflush (comp : List Nat → List Nat) (bs : List Nat)
    (s : SaveState) (hv : bs.length < BLOCK_BYTES)
    (hfit : s.buffer.length + bs.length ≤ BLOCK_BYTES) :
    saveBytes comp bs s = .ok ⟨s.buffer ++ bs, s.first_block, s.out⟩ := by
  unfold saveBytes
  rw [if_neg (by omega), if_neg (by omega)]

/-- Characterization of `save`: the state evolves by the pure chunking
function `wop`, the output grows by the frames of the flushed blocks. -/
theorem saveBytes_spec (comp : List Nat → List Nat)
    (Hc : ∀ b, comp b ≠ []) (bs : List Nat) (s : SaveState)
    (hv : bs.length < BLOCK_BYTES)
    (hh : s.first_block = true → HdrZero s.buffer) :
    saveBytes comp bs s = .ok
      ⟨(wop (.sc bs) s.buffer).2,
        firstAfter s.first_block (wop (.sc bs) s.buffer).1,
        s.out ++ emitWith comp s.first_block (wop (.sc bs) s.buffer).1⟩ := by
  by_cases ho : s.buffer.length + bs.length > BLOCK_BYTES
  · unfold saveBytes
    rw [if_neg (by omega), if_pos ho, flushBlock_spec comp Hc s hh]
    simp only [wop, if_pos ho]
    cases s.first_block <;> simp [firstAfter]
  · rw [saveBytes_noflush comp bs s hv (by omega)]
    simp only [wop, if_neg ho]
    cases s.first_block <;> simp [firstAfter, emitWith, emitFrames_nil]

/-- Characterization of the `save_binary` loop, by induction on its trip
count (which must match `binIters` of the remaining byte count). -/
theorem saveBinLoop_spec (comp : List Nat → List Nat)
    (Hc : ∀ b, comp b ≠ []) :
    ∀ (k : Nat) (bs : List Nat) (s : SaveState),
      k = binIters bs.length →
      (s.first_block = true → HdrZero s.buffer) →
      saveBinLoop comp k bs s = .ok
        ⟨(wbinLoop k bs s.buffer).2,
          firstAfter s.first_block (wbinLoop k bs s.buffer).1,
          s.out ++ emitWith comp s.first_block (wbinLoop k bs s.buffer).1⟩ := by
  intro k
  induction k with
  | zero =>
    intro bs s hk hh
    by_cases ho : s.buffer.length + bs.length > BLOCK_BYTES
    · unfold saveBinLoop
      rw [if_pos ho, flushBlock_spec comp Hc s hh]
      simp only [wbinLoop, if_pos ho]
      cases s.first_block <;> simp [firstAfter]
    · unfold saveBinLoop
      rw [if_neg ho]
      simp only [wbinLoop, if_neg ho]
      cases s.first_block <;> simp [firstAfter, emitWith, emitFrames_nil]
  | succ k ih =>
    intro bs s hk hh
    show (match flushBlock comp s with
      | Except.error e => Except.error e
      | Except.ok s1 => saveBinLoop comp k (bs.drop BLOCK_BYTES)
          ⟨bs.take BLOCK_BYTES, s1.first_block, s1.out⟩) = _
    rw [flushBlock_spec comp Hc s hh]
    have hiters : k = binIters (bs.drop BLOCK_BYTES).length := by
      have hB : BLOCK_BYTES = 65536 := rfl
      simp only [binIters, hB, List.length_drop] at hk ⊢
      omega
    show saveBinLoop comp k (bs.drop BLOCK_BYTES)
        ⟨bs.take BLOCK_BYTES, false,
          s.out ++ emitWith comp s.first_block [s.buffer]⟩ = _
    rw [ih (bs.drop BLOCK_BYTES)
      ⟨bs.take BLOCK_BYTES, false,
        s.out ++ emitWith comp s.first_block [s.buffer]⟩ hiters
      (by intro h; cases h)]
    show _ = Except.ok ⟨(wbinLoop (k + 1) bs s.buffer).2,
      firstAfter s.first_block (wbinLoop (k + 1) bs s.buffer).1,
      s.out ++ emitWith comp s.first_block (wbinLoop (k + 1) bs s.buffer).1⟩
    simp only [wbinLoop]
    cases s.first_block with
    | false =>
      simp [firstAfter, emitWith, emitFrames_cons, emitFrames_nil,
        List.append_assoc]
    | true =>
      simp [firstAfter, emitWith, emitFrames_nil, List.append_assoc]

theorem wrun_cons (op : Op) (rest : List Op) (buf : List Nat) :
    wrun (op :: rest) buf =
      ((wop op buf).1 ++ (wrun rest (wop op buf).2).1,
        (wrun rest (wop op buf).2).2) := rfl

theorem wbinLoop_nil_emit (k : Nat) (bs buf : List Nat)
    (h : (wbinLoop k bs buf).1 = []) :
    (wbinLoop k bs buf).2 = buf ++ bs := by
  cases k with
  | zero =>
    by_cases ho : buf.length + bs.length > BLOCK_BYTES
    · simp [wbinLoop, if_pos ho] at h
    · simp [wbinLoop, if_neg ho]
  | succ k => simp [wbinLoop] at h

theorem wop_nil_emit (op : Op) (buf : List Nat)
    (h : (wop op buf).1 = []) : (wop op buf).2 = buf ++ op.payload := by
  cases op with
  | sc bs =>
    by_cases ho : buf.length + bs.length > BLOCK_BYTES
    · simp [wop, if_pos ho] at h
    · simp [wop, if_neg ho, Op.payload]
  | bin bs => exact wbinLoop_nil_emit _ _ _ h

/-- Characterization of a run of primitive saves from a valid state. -/
theorem runOps_spec (comp : List Nat → List Nat)
    (Hc : ∀ b, comp b ≠ []) :
    ∀ (ops : List Op) (s : SaveState), validOps ops →
      (s.first_block = true → HdrZero s.buffer) →
      runOps comp ops s = .ok ⟨(wrun ops s.buffer).2,
        firstAfter s.first_block (wrun ops s.buffer).1,
        s.out ++ emitWith comp s.first_block (wrun ops s.buffer).1⟩ := by
  intro ops
  induction ops with
  | nil =>
    intro s hv hh
    obtain ⟨buf, fb, out⟩ := s
    show Except.ok (SaveState.mk buf fb out) = _
    cases fb <;> simp [wrun, firstAfter, emitWith, emitFrames_nil]
  | cons op rest ih =>
    intro s hv hh
    have hpres : firstAfter s.first_block (wop op s.buffer).1 = true →
        HdrZero (wop op s.buffer).2 := by
      intro h
      cases hfb : s.first_block with
      | false => rw [hfb, firstAfter, Bool.false_and] at h; cases h
      | true =>
        rw [hfb, firstAfter, Bool.true_and, List.isEmpty_iff] at h
        rw [wop_nil_emit op _ h]
        exact HdrZero_append _ _ (hh hfb)
    have hrest : validOps rest := fun o ho => hv o (List.mem_cons_of_mem _ ho)
    cases op with
    | sc bs =>
      obtain ⟨hne, hlt⟩ := hv (.sc bs) (List.mem_cons_self _ _)
      show (match saveBytes comp bs s with
        | Except.error e => Except.error e
        | Except.ok s1 => runOps comp rest s1) = _
      rw [saveBytes_spec comp Hc bs s hlt hh]
      show runOps comp rest ⟨(wop (.sc bs) s.buffer).2,
        firstAfter s.first_block (wop (.sc bs) s.buffer).1,
        s.out ++ emitWith comp s.first_block (wop (.sc bs) s.buffer).1⟩ = _
      rw [ih _ hrest hpres]
      simp only [wrun_cons]
      rw [firstAfter_append, List.append_assoc, emitWith_append]
    | bin bs =>
      show (match saveBinary comp bs s with
        | Except.error e => Except.error e
        | Except.ok s1 => runOps comp rest s1) = _
      rw [show saveBinary comp bs s =
        saveBinLoop comp (binIters bs.length) bs s from rfl]
      rw [saveBinLoop_spec comp Hc (binIters bs.length) bs s rfl hh]
      show runOps comp rest ⟨(wop (.bin bs) s.buffer).2,
        firstAfter s.first_block (wop (.bin bs) s.buffer).1,
        s.out ++ emitWith comp s.first_block (wop (.bin bs) s.buffer).1⟩ = _
      rw [ih _ hrest hpres]
      simp only [wrun_cons]
      rw [firstAfter_append, List.append_assoc, emitWith_append]

theorem IsLead_trans (a b c : List Nat) (h1 : IsLead a b)
    (h2 : IsLead b c) : IsLead a c := by
  obtain ⟨t, ht⟩ := h1
  obtain ⟨u, hu⟩ := h2
  exact ⟨t ++ u, by rw [← hu, ← ht, List.append_assoc]⟩

/-- When a run flushes nothing, the buffer only grows. -/
theorem wrun_lead : ∀ (ops : List Op) (buf : List Nat),
    (wrun ops buf).1 = [] → IsLead buf (wrun ops buf).2 := by
  intro ops
  induction ops with
  | nil => intro buf _; exact IsLead_refl buf
  | cons op rest ih =>
    intro buf h
    rw [wrun_cons] at h ⊢
    have h1 : (wop op buf).1 = [] := by
      cases he : (wop op buf).1 with
      | nil => rfl
      | cons x t => rw [he] at h; simp at h
    have h2 : (wrun rest (wop op buf).2).1 = [] := by
      rw [h1] at h
      simpa using h
    refine IsLead_trans _ _ _ ?_ (ih _ h2)
    rw [wop_nil_emit op buf h1]
    exact IsLead_append _ _

/-- The wire stream a whole save run produces for a header image and a
list of primitive operations: the chunked blocks, first-framed at the
front, and the zero sentinel. -/
def wstream (comp : List Nat → List Nat) (hdrB : List Nat)
    (ops : List Op) : List Nat :=
  emitWith comp true ((wrun ops hdrB).1 ++ [(wrun ops hdrB).2]) ++ encLE 8 0

/-- Characterization of a whole save run: header saved first, then the
operations, then the destructor's final flush and sentinel. -/
theorem saveRun_spec (comp : List Nat → List Nat) (Hc : ∀ b, comp b ≠ [])
    (hdrB : List Nat) (ops : List Op) (hv : validOps ops)
    (hz : HdrZero hdrB) (hlen : hdrB.length < BLOCK_BYTES) :
    saveRun comp (.sc hdrB :: ops) = .ok (wstream comp hdrB ops) := by
  unfold saveRun
  show (match (match saveBytes comp hdrB ⟨[], true, []⟩ with
    | Except.error e => Except.error e
    | Except.ok s1 => runOps comp ops s1) with
    | Except.error e => Except.error e
    | Except.ok s => saveClose comp s) = _
  rw [saveBytes_noflush comp hdrB ⟨[], true, []⟩ hlen (by simp; omega)]
  show (match runOps comp ops ⟨hdrB, true, []⟩ with
    | Except.error e => Except.error e
    | Except.ok s => saveClose comp s) = _
  rw [runOps_spec comp Hc ops ⟨hdrB, true, []⟩ hv (fun _ => hz)]
  show saveClose comp ⟨(wrun ops hdrB).2,
    firstAfter true (wrun ops hdrB).1,
    [] ++ emitWith comp true (wrun ops hdrB).1⟩ = _
  unfold saveClose
  rw [flushBlock_spec comp Hc _ (by
    intro hf
    show HdrZero (wrun ops hdrB).2
    rw [firstAfter, Bool.true_and, List.isEmpty_iff] at hf
    exact HdrZero_of_IsLead _ _ hz (wrun_lead ops hdrB hf))]
  show Except.ok (([] ++ emitWith comp true (wrun ops hdrB).1) ++
    emitWith comp (firstAfter true (wrun ops hdrB).1)
      [(wrun ops hdrB).2] ++ encLE 8 0) = _
  rw [List.nil_append, emitWith_append, wstream]

theorem runOps_append (comp : List Nat → List Nat) (a b : List Op) :
    ∀ s : SaveState, runOps comp (a ++ b) s =
      (match runOps comp a s with
       | Except.error e => Except.error e
       | Except.ok s1 => runOps comp b s1) := by
  induction a with
  | nil => intro s; rfl
  | cons op rest ih =>
    intro s
    cases op with
    | sc bs =>
      show (match saveBytes comp bs s with
        | Except.error e => Except.error e
        | Except.ok s1 => runOps comp (rest ++ b) s1) =
        (match (match saveBytes comp bs s with
          | Except.error e => Except.error e
          | Except.ok s1 => runOps comp rest s1) with
        | Except.error e => Except.error e
        | Except.ok s1 => runOps comp b s1)
      cases saveBytes comp bs s with
      | error e => rfl
      | ok s1 => exact ih s1
    | bin bs =>
      show (match saveBinary comp bs s with
        | Except.error e => Except.error e
        | Except.ok s1 => runOps comp (rest ++ b) s1) =
        (match (match saveBinary comp bs s with
          | Except.error e => Except.error e
          | Except.ok s1 => runOps comp rest s1) with
        | Except.error e => Except.error e
        | Except.ok s1 => runOps comp b s1)
      cases saveBinary comp bs s with
      | error e => rfl
      | ok s1 => exact ih s1

/-- The dispatch recursion over the SaveArchive is the run of the
operations it issues. -/
theorem saveValArch_eq_runOps (comp : List Nat → List Nat) (v : Val) :
    ∀ s : SaveState, saveValArch comp v s = runOps comp (valOps v) s := by
  induction v with
  | scalar w n =>
    intro s
    show saveBytes comp (encLE w n) s =
      (match saveBytes comp (encLE w n) s with
        | Except.error e => Except.error e
        | Except.ok s1 => Except.ok s1)
    cases saveBytes comp (encLE w n) s <;> rfl
  | enumV n =>
    intro s
    show saveBytes comp (encLE 4 n) s =
      (match saveBytes comp (encLE 4 n) s with
        | Except.error e => Except.error e
        | Except.ok s1 => Except.ok s1)
    cases saveBytes comp (encLE 4 n) s <;> rfl
  | blobV bs =>
    intro s
    show saveBinary comp bs s =
      (match saveBinary comp bs s with
        | Except.error e => Except.error e
        | Except.ok s1 => Except.ok s1)
    cases saveBinary comp bs s <;> rfl
  | ptrV a => intro s; rfl
  | vnil => intro s; rfl
  | vcons a tl iha ihtl =>
    intro s
    show (match saveValArch comp a s with
      | Except.error e => Except.error e
      | Except.ok s1 => saveValArch comp tl s1) = _
    rw [valOps, runOps_append, iha s]
    cases runOps comp (valOps a) s with
    | error e => rfl
    | ok s1 => exact ihtl s1
  | pnil => intro s; rfl
  | pcons k v tl ihk ihv ihtl =>
    intro s
    show (match saveValArch comp k s with
      | Except.error e => Except.error e
      | Except.ok s1 =>
        match saveValArch comp v s1 with
        | Except.error e => Except.error e
        | Except.ok s2 => saveValArch comp tl s2) = _
    rw [valOps, runOps_append, runOps_append, ihk s]
    cases runOps comp (valOps k) s with
    | error e => rfl
    | ok s1 =>
      show (match saveValArch comp v s1 with
        | Except.error e => Except.error e
        | Except.ok s2 => saveValArch comp tl s2) =
        (match runOps comp (valOps v) s1 with
          | Except.error e => Except.error e
          | Except.ok s2 => runOps comp (valOps tl) s2)
      rw [ihv s1]
      cases runOps comp (valOps v) s1 with
      | error e => rfl
      | ok s2 => exact ihtl s2
  | vecV l ih =>
    intro s
    show (match saveBytes comp (encLE 8 (vlen l)) s with
      | Except.error e => Except.error e
      | Except.ok s1 => saveValArch comp l s1) = _
    rw [valOps]
    show _ = (match saveBytes comp (encLE 8 (vlen l)) s with
      | Except.error e => Except.error e
      | Except.ok s1 => runOps comp (valOps l) s1)
    cases saveBytes comp (encLE 8 (vlen l)) s with
    | error e => rfl
    | ok s1 => exact ih s1
  | mapV l ih =>
    intro s
    show (match saveBytes comp (encLE 8 (plen l)) s with
      | Except.error e => Except.error e
      | Except.ok s1 => saveValArch comp l s1) = _
    rw [valOps]
    show _ = (match saveBytes comp (encLE 8 (plen l)) s with
      | Except.error e => Except.error e
      | Except.ok s1 => runOps comp (valOps l) s1)
    cases saveBytes comp (encLE 8 (plen l)) s with
    | error e => rfl
    | ok s1 => exact ih s1
  | arrV l =>
    intro s
    show saveBytes comp (rawSpine l) s =
      (match saveBytes comp (rawSpine l) s with
        | Except.error e => Except.error e
        | Except.ok s1 => Except.ok s1)
    cases saveBytes comp (rawSpine l) s <;> rfl

/-- A whole save is the op-level run of header plus value operations. -/
theorem fullSave_eq_saveRun (comp : List Nat → List Nat)
    (h0 : IndexHeaderStruct) (v : Val) :
    fullSave comp h0 v = saveRun comp (.sc (encodeHeader h0) :: valOps v) := by
  unfold fullSave saveRun
  show _ = (match (match saveBytes comp (encodeHeader h0) ⟨[], true, []⟩ with
    | Except.error e => Except.error e
    | Except.ok s1 => runOps comp (valOps v) s1) with
    | Except.error e => Except.error e
    | Except.ok s => saveClose comp s)
  cases saveBytes comp (encodeHeader h0) ⟨[], true, []⟩ with
  | error e => rfl
  | ok s1 =>
    show (match saveValArch comp v s1 with
      | Except.error e => Except.error e
      | Except.ok s2 => saveClose comp s2) = _
    rw [saveValArch_eq_runOps comp v s1]

/-- The total raw width of a well-typed leaf spine. -/
theorem rawSpine_length (t : Ty) : ∀ l : Val, wtElems t l = true →
    (rawSpine l).length = vlen l * arrWidth t := by
  intro l
  induction l with
  | vcons a tl iha ihtl =>
    intro h
    rw [wtElems, Bool.and_eq_true] at h
    have ha : (rawBytes a).length = arrWidth t := by
      cases t <;> cases a <;> simp_all [wt, rawBytes, arrWidth, leafWidth,
        encLE_length] <;> omega
    rw [rawSpine, List.length_append, ha, ihtl h.2, vlen]
    ring
  | vnil => intro h; simp [rawSpine, vlen]
  | scalar w n => intro h; simp [wtElems] at h
  | enumV n => intro h; simp [wtElems] at h
  | blobV bs => intro h; simp [wtElems] at h
  | ptrV a => intro h; simp [wtElems] at h
  | pnil => intro h; simp [wtElems] at h
  | pcons k v tl ihk ihv ihtl => intro h; simp [wtElems] at h
  | vecV l ih => intro h; simp [wtElems] at h
  | mapV l ih => intro h; simp [wtElems] at h
  | arrV l ih => intro h; simp [wtElems] at h


/-- Validity is preserved by concatenation of operation lists. -/
theorem validOps_append {a b : List Op} (ha : validOps a)
    (hb : validOps b) : validOps (a ++ b) := by
  intro op hop
  rcases List.mem_append.mp hop with h | h
  · exact ha op h
  · exact hb op h

theorem encLE_ne_nil {w : Nat} (n : Nat) (hw : 0 < w) : encLE w n ≠ [] := by
  intro hcon
  have := encLE_length w n
  rw [hcon] at this
  simp at this
  omega

theorem validOp_encLE {w n : Nat} (hw : 0 < w) (hb : w < BLOCK_BYTES) :
    validOp (.sc (encLE w n)) :=
  ⟨encLE_ne_nil n hw, by rw [encLE_length]; omega⟩

/-- The operations a well-typed value issues are valid (each scalar save
is non-empty and passes the block-size assert); stated together with the
spine variants for the induction. -/
theorem valOps_valid : ∀ v : Val,
    (∀ t : Ty, wt t v = true → validOps (valOps v)) ∧
    (∀ t : Ty, wtElems t v = true → validOps (valOps v)) ∧
    (∀ k w : Ty, wtEntries k w v = true → validOps (valOps v)) := by
  intro v
  induction v with
  | scalar w n =>
    refine ⟨?_, ?_, ?_⟩
    · intro t ht
      cases t <;> simp [wt] at ht
      obtain ⟨⟨⟨heq, hw⟩, hb⟩, -⟩ := ht
      intro op hop
      rw [valOps] at hop
      rw [List.mem_singleton] at hop
      subst hop
      exact validOp_encLE (by omega) (by omega)
    · intro t ht; simp [wtElems] at ht
    · intro k w2 ht; simp [wtEntries] at ht
  | enumV n =>
    have hv : validOps (valOps (.enumV n)) := by
      intro op hop
      rw [valOps] at hop
      rw [List.mem_singleton] at hop
      subst hop
      exact validOp_encLE (by omega) (by decide)
    exact ⟨fun _ _ => hv, fun _ _ => hv, fun _ _ _ => hv⟩
  | blobV bs =>
    have hv : validOps (valOps (.blobV bs)) := by
      intro op hop
      rw [valOps] at hop
      rw [List.mem_singleton] at hop
      subst hop
      exact trivial
    exact ⟨fun _ _ => hv, fun _ _ => hv, fun _ _ _ => hv⟩
  | ptrV a =>
    have hv : validOps (valOps (.ptrV a)) := by
      intro op hop
      rw [valOps] at hop
      simp at hop
    exact ⟨fun _ _ => hv, fun _ _ => hv, fun _ _ _ => hv⟩
  | vnil =>
    have hv : validOps (valOps .vnil) := by
      intro op hop
      rw [valOps] at hop
      simp at hop
    exact ⟨fun _ _ => hv, fun _ _ => hv, fun _ _ _ => hv⟩
  | pnil =>
    have hv : validOps (valOps .pnil) := by
      intro op hop
      rw [valOps] at hop
      simp at hop
    exact ⟨fun _ _ => hv, fun _ _ => hv, fun _ _ _ => hv⟩
  | vcons a tl iha ihtl =>
    refine ⟨?_, ?_, ?_⟩
    · intro t ht; cases t <;> simp [wt] at ht
    · intro t ht
      rw [wtElems, Bool.and_eq_true] at ht
      rw [valOps]
      exact validOps_append (iha.1 t ht.1) (ihtl.2.1 t ht.2)
    · intro k w2 ht; simp [wtEntries] at ht
  | pcons k v tl ihk ihv ihtl =>
    refine ⟨?_, ?_, ?_⟩
    · intro t ht; cases t <;> simp [wt] at ht
    · intro t ht; simp [wtElems] at ht
    · intro tk tv ht
      rw [wtEntries, Bool.and_eq_true, Bool.and_eq_true] at ht
      rw [valOps]
      exact validOps_append
        (validOps_append (ihk.1 tk ht.1.1) (ihv.1 tv ht.1.2))
        (ihtl.2.2 tk tv ht.2)
  | vecV l ih =>
    refine ⟨?_, ?_, ?_⟩
    · intro t ht
      cases t <;> simp [wt] at ht
      rename_i t
      rw [valOps]
      intro op hop
      rcases List.mem_cons.mp hop with h | h
      · subst h; exact validOp_encLE (by omega) (by decide)
      · exact ih.2.1 t ht.1 op h
    · intro t ht; simp [wtElems] at ht
    · intro k w2 ht; simp [wtEntries] at ht
  | mapV l ih =>
    refine ⟨?_, ?_, ?_⟩
    · intro t ht
      cases t <;> simp [wt] at ht
      rename_i tk tv
      rw [valOps]
      intro op hop
      rcases List.mem_cons.mp hop with h | h
      · subst h; exact validOp_encLE (by omega) (by decide)
      · exact ih.2.2 tk tv ht.1.1 op h
    · intro t ht; simp [wtElems] at ht
    · intro k w2 ht; simp [wtEntries] at ht
  | arrV l ih =>
    refine ⟨?_, ?_, ?_⟩
    · intro t ht
      cases t <;> simp [wt] at ht
      rename_i t n
      obtain ⟨⟨⟨⟨hsome, hel⟩, hlen⟩, hpos⟩, hsz⟩ := ht
      have hwpos : 0 < arrWidth t := by
        cases l with
        | vcons a tl =>
          rw [wtElems, Bool.and_eq_true] at hel
          cases t <;> cases a <;>
            simp_all [wt, arrWidth, leafWidth] <;> omega
        | vnil => simp [vlen] at hlen; omega
        | scalar w2 n2 => simp [wtElems] at hel
        | enumV n2 => simp [wtElems] at hel
        | blobV bs => simp [wtElems] at hel
        | ptrV a2 => simp [wtElems] at hel
        | pnil => simp [wtElems] at hel
        | pcons k2 v2 tl2 => simp [wtElems] at hel
        | vecV l2 => simp [wtElems] at hel
        | mapV l2 => simp [wtElems] at hel
        | arrV l2 => simp [wtElems] at hel
      have hrs : (rawSpine l).length = n * arrWidth t := by
        rw [rawSpine_length t l hel, hlen]
      intro op hop
      rw [valOps] at hop
      rw [List.mem_singleton] at hop
      subst hop
      constructor
      · intro hcon
        rw [hcon] at hrs
        simp at hrs
        rcases hrs with h | h <;> omega
      · omega
    · intro t ht; simp [wtElems] at ht
    · intro k w2 ht; simp [wtEntries] at ht

theorem HdrZero_encodeHeader (h0 : IndexHeaderStruct) (hwf : HdrWF h0)
    (hc0 : h0.compression = 0) : HdrZero (encodeHeader h0) := by
  constructor
  · rw [encodeHeader_length h0 hwf]
  · rw [encodeHeader_compression_slice h0 hwf, hc0, decLE_encLE]
    simp

/-- C10: a `SaveArchive` whose first saved value is an
`IndexHeaderStruct` image with compression field 0 completes every flush
and its destructor successfully: the `assert(head->compression == 0)`
holds and the `offset_ - headSz` subtraction cannot underflow on any
flush of the run, so the whole run returns its characterized stream
instead of an `underflow`/`assertFail` error. -/
theorem c10_header_first (comp : List Nat → List Nat)
    (Hc : ∀ b, comp b ≠ []) (h0 : IndexHeaderStruct) (hwf : HdrWF h0)
    (hc0 : h0.compression = 0) (ops : List Op) (hv : validOps ops) :
    saveRun comp (.sc (encodeHeader h0) :: ops) =
      .ok (wstream comp (encodeHeader h0) ops) :=
  saveRun_spec comp Hc _ ops hv (HdrZero_encodeHeader h0 hwf hc0)
    (by rw [encodeHeader_length h0 hwf]; decide)

/-- Witness for C10 at a concrete header and a one-scalar run. -/
theorem c10_witness :
    saveRun compX (.sc (encodeHeader hdrA) :: valOps (.scalar 4 9)) =
      .ok (wstream compX (encodeHeader hdrA) (valOps (.scalar 4 9))) :=
  c10_header_first compX (fun b => by simp [compX]) hdrA
    (by refine ⟨rfl, ?_, rfl, ?_, ?_, ?_, ?_, ?_, ?_, ?_⟩ <;> decide) rfl
    (valOps (.scalar 4 9)) ((valOps_valid _).1 (.scalarT 4) (by decide))

/-- A whole well-typed save succeeds and produces the characterized
stream. -/
theorem fullSave_spec (comp : List Nat → List Nat) (Hc : ∀ b, comp b ≠ [])
    (h0 : IndexHeaderStruct) (hwf : HdrWF h0) (hc0 : h0.compression = 0)
    (t : Ty) (v : Val) (hv : wt t v = true) :
    fullSave comp h0 v = .ok (wstream comp (encodeHeader h0) (valOps v)) := by
  rw [fullSave_eq_saveRun]
  exact saveRun_spec comp Hc _ _ ((valOps_valid v).1 t hv)
    (HdrZero_encodeHeader h0 hwf hc0)
    (by rw [encodeHeader_length h0 hwf]; decide)

/-- Buffer/block well-formedness facts about the binary chunking loop. -/
theorem wbinLoop_props : ∀ (k : Nat) (bs buf : List Nat),
    k = binIters bs.length → buf ≠ [] → buf.length ≤ BLOCK_BYTES →
    (wbinLoop k bs buf).2 ≠ [] ∧
    (wbinLoop k bs buf).2.length ≤ BLOCK_BYTES ∧
    ∀ b ∈ (wbinLoop k bs buf).1, b ≠ [] ∧ b.length ≤ BLOCK_BYTES := by
  intro k
  induction k with
  | zero =>
    intro bs buf hk hne hle
    have hbs : bs.length ≤ BLOCK_BYTES := by
      have hB : BLOCK_BYTES = 65536 := rfl
      simp only [binIters, hB] at hk ⊢
      omega
    by_cases ho : buf.length + bs.length > BLOCK_BYTES
    · simp only [wbinLoop, if_pos ho]
      refine ⟨?_, hbs, ?_⟩
      · have : 0 < bs.length := by omega
        intro hcon
        rw [hcon] at this
        simp at this
      · intro b hb
        rw [List.mem_singleton] at hb
        subst hb
        exact ⟨hne, hle⟩
    · simp only [wbinLoop, if_neg ho]
      refine ⟨?_, by rw [List.length_append]; omega, by intro b hb; simp at hb⟩
      intro hcon
      rw [List.append_eq_nil] at hcon
      exact hne hcon.1
  | succ k ih =>
    intro bs buf hk hne hle
    have hB : BLOCK_BYTES = 65536 := rfl
    have hgt : bs.length > BLOCK_BYTES := by
      simp only [binIters, hB] at hk ⊢
      omega
    have hk2 : k = binIters (bs.drop BLOCK_BYTES).length := by
      simp only [binIters, hB, List.length_drop] at hk ⊢
      omega
    have htk : (bs.take BLOCK_BYTES).length = BLOCK_BYTES := by
      rw [List.length_take]
      omega
    have h1 := ih (bs.drop BLOCK_BYTES) (bs.take BLOCK_BYTES) hk2
      (by intro hcon; rw [hcon] at htk; simp [hB] at htk)
      (by omega)
    simp only [wbinLoop]
    refine ⟨h1.1, h1.2.1, ?_⟩
    intro b hb
    rw [List.mem_cons] at hb
    rcases hb with hb | hb
    · subst hb; exact ⟨hne, hle⟩
    · exact h1.2.2 b hb

theorem wop_props (op : Op) (hop : validOp op) (buf : List Nat)
    (hne : buf ≠ []) (hle : buf.length ≤ BLOCK_BYTES) :
    (wop op buf).2 ≠ [] ∧ (wop op buf).2.length ≤ BLOCK_BYTES ∧
    ∀ b ∈ (wop op buf).1, b ≠ [] ∧ b.length ≤ BLOCK_BYTES := by
  cases op with
  | sc bs =>
    obtain ⟨hbne, hblt⟩ := hop
    by_cases ho : buf.length + bs.length > BLOCK_BYTES
    · simp only [wop, if_pos ho]
      refine ⟨hbne, by omega, ?_⟩
      intro b hb
      rw [List.mem_singleton] at hb
      subst hb
      exact ⟨hne, hle⟩
    · simp only [wop, if_neg ho]
      refine ⟨?_, by rw [List.length_append]; omega,
        by intro b hb; simp at hb⟩
      intro hcon
      rw [List.append_eq_nil] at hcon
      exact hne hcon.1
  | bin bs => exact wbinLoop_props _ bs buf rfl hne hle

theorem wrun_props : ∀ (ops : List Op) (buf : List Nat), validOps ops →
    buf ≠ [] → buf.length ≤ BLOCK_BYTES →
    (wrun ops buf).2 ≠ [] ∧ (wrun ops buf).2.length ≤ BLOCK_BYTES ∧
    ∀ b ∈ (wrun ops buf).1, b ≠ [] ∧ b.length ≤ BLOCK_BYTES := by
  intro ops
  induction ops with
  | nil =>
    intro buf _ hne hle
    exact ⟨hne, hle, by intro b hb; simp [wrun] at hb⟩
  | cons op rest ih =>
    intro buf hv hne hle
    have h1 := wop_props op (hv op (List.mem_cons_self _ _)) buf hne hle
    have h2 := ih (wop op buf).2
      (fun o ho => hv o (List.mem_cons_of_mem _ ho)) h1.1 h1.2.1
    rw [wrun_cons]
    refine ⟨h2.1, h2.2.1, ?_⟩
    intro b hb
    rw [List.mem_append] at hb
    rcases hb with hb | hb
    · exact h1.2.2 b hb
    · exact h2.2.2 b hb

/-- The blocks still to be produced, current one first. -/
theorem blocks_decomp (ops : List Op) (buf : List Nat) :
    (wrun ops buf).1 ++ [(wrun ops buf).2] =
      headBlk ops buf :: tailBlks ops buf := by
  unfold headBlk tailBlks
  rcases hw : wrun ops buf with ⟨e, fin⟩
  cases e <;> simp

theorem headBlk_props (ops : List Op) (buf : List Nat) (hv : validOps ops)
    (hne : buf ≠ []) (hle : buf.length ≤ BLOCK_BYTES) :
    headBlk ops buf ≠ [] ∧ (headBlk ops buf).length ≤ BLOCK_BYTES := by
  have h := wrun_props ops buf hv hne hle
  have hmem : headBlk ops buf ∈ (wrun ops buf).1 ++ [(wrun ops buf).2] := by
    rw [blocks_decomp]
    exact List.mem_cons_self _ _
  rw [List.mem_append] at hmem
  rcases hmem with hm | hm
  · exact h.2.2 _ hm
  · rw [List.mem_singleton] at hm
    rw [hm]
    exact ⟨h.1, h.2.1⟩

theorem tailBlks_props (ops : List Op) (buf : List Nat) (hv : validOps ops)
    (hne : buf ≠ []) (hle : buf.length ≤ BLOCK_BYTES) :
    ∀ b ∈ tailBlks ops buf, b ≠ [] ∧ b.length ≤ BLOCK_BYTES := by
  have h := wrun_props ops buf hv hne hle
  intro b hb
  have hmem : b ∈ (wrun ops buf).1 ++ [(wrun ops buf).2] := by
    rw [blocks_decomp]
    exact List.mem_cons_of_mem _ hb
  rw [List.mem_append] at hmem
  rcases hmem with hm | hm
  · exact h.2.2 _ hm
  · rw [List.mem_singleton] at hm
    rw [hm]
    exact ⟨h.1, h.2.1⟩

theorem headBlk_cons_nil (op : Op) (rest : List Op) (buf : List Nat)
    (h : (wop op buf).1 = []) :
    headBlk (op :: rest) buf = headBlk rest (wop op buf).2 := by
  unfold headBlk
  rw [wrun_cons, h, List.nil_append]

theorem tailBlks_cons_nil (op : Op) (rest : List Op) (buf : List Nat)
    (h : (wop op buf).1 = []) :
    tailBlks (op :: rest) buf = tailBlks rest (wop op buf).2 := by
  unfold tailBlks
  rw [wrun_cons, h, List.nil_append]

theorem wop_emit_head (op : Op) (buf b : List Nat) (t : List (List Nat))
    (h : (wop op buf).1 = b :: t) : b = buf := by
  cases op with
  | sc bs =>
    by_cases ho : buf.length + bs.length > BLOCK_BYTES
    · simp only [wop, if_pos ho] at h
      cases h
      rfl
    · simp only [wop, if_neg ho] at h
      cases h
  | bin bs =>
    show b = buf
    have : (wop (.bin bs) buf).1 = b :: t := h
    simp only [wop, wbin] at this
    cases hk : binIters bs.length with
    | zero =>
      rw [hk] at this
      by_cases ho : buf.length + bs.length > BLOCK_BYTES
      · simp only [wbinLoop, if_pos ho] at this
        cases this
        rfl
      · simp only [wbinLoop, if_neg ho] at this
        cases this
    | succ k =>
      rw [hk] at this
      simp only [wbinLoop] at this
      cases this
      rfl

theorem headBlk_eq_head (ops : List Op) (buf b : List Nat)
    (t : List (List Nat)) (h : (wrun ops buf).1 = b :: t) :
    headBlk ops buf = b := by
  unfold headBlk
  rcases hw : wrun ops buf with ⟨e, fin⟩
  rw [hw] at h
  change e = b :: t at h
  subst h
  rfl

theorem tailBlks_eq_tail (ops : List Op) (buf b : List Nat)
    (t : List (List Nat)) (h : (wrun ops buf).1 = b :: t) :
    tailBlks ops buf = t ++ [(wrun ops buf).2] := by
  unfold tailBlks
  rcases hw : wrun ops buf with ⟨e, fin⟩
  rw [hw] at h
  change e = b :: t at h
  subst h
  rfl

theorem headBlk_cons_flush (op : Op) (rest : List Op) (buf b : List Nat)
    (t : List (List Nat)) (h : (wop op buf).1 = b :: t) :
    headBlk (op :: rest) buf = buf := by
  have h1 : (wrun (op :: rest) buf).1 =
      b :: (t ++ (wrun rest (wop op buf).2).1) := by
    rw [wrun_cons, h, List.cons_append]
  rw [headBlk_eq_head (op :: rest) buf b _ h1]
  exact wop_emit_head op buf b t h

/-- The current block's final contents extend the current buffer. -/
theorem headBlk_lead : ∀ (ops : List Op) (buf : List Nat),
    IsLead buf (headBlk ops buf) := by
  intro ops
  induction ops with
  | nil =>
    intro buf
    show IsLead buf buf
    exact IsLead_refl buf
  | cons op rest ih =>
    intro buf
    cases he : (wop op buf).1 with
    | nil =>
      rw [headBlk_cons_nil op rest buf he, wop_nil_emit op buf he]
      exact IsLead_trans _ _ _ (IsLead_append _ _) (ih _)
    | cons b t =>
      rw [headBlk_cons_flush op rest buf b t he]
      exact IsLead_refl buf

theorem IsLead.length_le {a b : List Nat} (h : IsLead a b) :
    a.length ≤ b.length := by
  obtain ⟨t, ht⟩ := h
  rw [← ht, List.length_append]
  omega

/-- Simulation invariant between the reader's archive state and a writer
mid-run: the writer is about to execute `ops` with `buf` accumulated in
its active block; the reader has consumed exactly those bytes, its
active block agrees with the final contents of the writer's block from
the cursor on (the patched header makes the first 80 bytes of the first
block differ, which is why only the suffix is pinned), and the unread
stream holds exactly the frames of the future blocks followed by
`extra` (the sentinel and anything after it). -/
structure SimInv (comp : List Nat → List Nat) (ops : List Op)
    (buf extra : List Nat) (ls : LoadState) : Prop where
  bufNe : buf ≠ []
  bufLe : buf.length ≤ BLOCK_BYTES
  posEq : ls.pos = buf.length
  lenEq : ls.block.length = (headBlk ops buf).length
  sufEq : ls.block.drop buf.length = (headBlk ops buf).drop buf.length
  streamEq : ls.stream = emitFrames comp (tailBlks ops buf) ++ extra
  legEq : ls.legacy = false

set_option maxHeartbeats 1000000

/-- One scalar-sized read under the invariant returns exactly the bytes
the writer placed and re-establishes the invariant: the reader advances
to the next block precisely when the writer flushed before this value. -/
theorem loadBytes_sim (comp decomp : List Nat → List Nat)
    (Hi : ∀ b, decomp (comp b) = b) (Hc : ∀ b, comp b ≠ [])
    (Hb : ∀ b, b.length ≤ BLOCK_BYTES →
      (comp b).length < lz4CompressBound BLOCK_BYTES)
    (bs : List Nat) (hbs : bs.length ≤ BLOCK_BYTES) (rest : List Op)
    (hv : validOps rest) (buf extra : List Nat) (ls : LoadState)
    (hinv : SimInv comp (.sc bs :: rest) buf extra ls) :
    ∃ ls2, loadBytes decomp bs.length ls = .ok (bs, ls2) ∧
      SimInv comp rest (wop (.sc bs) buf).2 extra ls2 := by
  obtain ⟨bufNe, bufLe, posEq, lenEq, sufEq, streamEq, legEq⟩ := hinv
  obtain ⟨blk, pos, strm, leg⟩ := ls
  simp only at posEq lenEq sufEq streamEq legEq
  subst posEq
  subst streamEq
  subst legEq
  by_cases ho : buf.length + bs.length > BLOCK_BYTES
  · -- the writer flushed before this value: the reader advances
    have hemit : (wop (.sc bs) buf).1 = [buf] := by
      simp [wop, if_pos ho]
    have hbuf2 : (wop (.sc bs) buf).2 = bs := by
      simp [wop, if_pos ho]
    have hbsne : bs ≠ [] := by
      intro hcon
      subst hcon
      simp at ho
      omega
    have hbspos : 0 < bs.length := List.length_pos.mpr hbsne
    have hH : headBlk (.sc bs :: rest) buf = buf :=
      headBlk_cons_flush _ rest buf buf [] hemit
    have hwc : (wrun (.sc bs :: rest) buf).1 = buf :: (wrun rest bs).1 := by
      rw [wrun_cons, hemit, hbuf2]
      rfl
    have hw2 : (wrun (.sc bs :: rest) buf).2 = (wrun rest bs).2 := by
      rw [wrun_cons, hbuf2]
    have hT : tailBlks (.sc bs :: rest) buf =
        headBlk rest bs :: tailBlks rest bs := by
      rw [tailBlks_eq_tail (.sc bs :: rest) buf buf (wrun rest bs).1 hwc,
        hw2, blocks_decomp rest bs]
    have hHp := headBlk_props rest bs hv hbsne (by omega)
    obtain ⟨u, hu⟩ := headBlk_lead rest bs
    have hclen : (comp (headBlk rest bs)).length <
        lz4CompressBound BLOCK_BYTES := Hb _ hHp.2
    have hclen64 : (comp (headBlk rest bs)).length < 2 ^ 64 :=
      lt_trans hclen (by decide)
    have hcne : (comp (headBlk rest bs)).length ≠ 0 := by
      intro hcon
      exact Hc _ (List.length_eq_zero.mp hcon)
    have hstr : emitFrames comp (tailBlks (.sc bs :: rest) buf) ++ extra =
        encLE 8 (comp (headBlk rest bs)).length ++
          (comp (headBlk rest bs) ++
            (emitFrames comp (tailBlks rest bs) ++ extra)) := by
      rw [hT, emitFrames_cons]
      simp [List.append_assoc]
    have lenEq2 : blk.length = buf.length := by rw [lenEq, hH]
    have hprep : preparePtr decomp bs.length
        ⟨blk, buf.length, encLE 8 (comp (headBlk rest bs)).length ++
          (comp (headBlk rest bs) ++
            (emitFrames comp (tailBlks rest bs) ++ extra)), false⟩ =
        .ok ⟨headBlk rest bs, 0,
          emitFrames comp (tailBlks rest bs) ++ extra, false⟩ := by
      unfold preparePtr
      rw [if_neg (by
        simp only
        omega)]
      rw [if_neg (by
        rw [List.length_append, encLE_length]
        omega)]
      rw [take_append_len (encLE_length 8 _), decLE_encLE, pow_256_8,
        Nat.mod_eq_of_lt hclen64]
      rw [if_neg hcne]
      unfold loadBlock
      rw [if_neg (by omega)]
      rw [drop_append_len (encLE_length 8 _)]
      rw [if_neg (by
        push_neg
        refine ⟨hcne, ?_⟩
        rw [List.length_append]
        omega)]
      rw [take_append_len rfl, Hi]
      rw [if_neg (by
        push_neg
        refine ⟨fun hcon => hHp.1 (List.length_eq_zero.mp hcon), ?_⟩
        exact hHp.2)]
      rw [drop_append_len rfl]
    refine ⟨⟨headBlk rest bs, bs.length,
      emitFrames comp (tailBlks rest bs) ++ extra, false⟩, ?_, ?_⟩
    · show loadBytes decomp bs.length
        ⟨blk, buf.length,
          emitFrames comp (tailBlks (.sc bs :: rest) buf) ++ extra,
          false⟩ = _
      rw [hstr]
      unfold loadBytes
      rw [hprep]
      unfold readAt
      simp only
      rw [if_pos (by
        have := IsLead.length_le ⟨u, hu⟩
        omega)]
      rw [List.drop_zero, ← hu, take_append_len rfl, Nat.zero_add]
    · rw [hbuf2]
      exact ⟨hbsne, by omega, rfl, rfl, rfl, rfl, rfl⟩
  · -- the value fits: no advance
    have hemit : (wop (.sc bs) buf).1 = [] := by
      simp [wop, if_neg ho]
    have hbuf2 : (wop (.sc bs) buf).2 = buf ++ bs := by
      simp [wop, if_neg ho]
    have hH0 := headBlk_cons_nil (.sc bs) rest buf hemit
    have hT0 := tailBlks_cons_nil (.sc bs) rest buf hemit
    rw [hbuf2] at hH0 hT0
    obtain ⟨u, hu⟩ := headBlk_lead rest (buf ++ bs)
    have hlen2 : buf.length + bs.length ≤ blk.length := by
      rw [lenEq, hH0, ← hu]
      simp [List.length_append]
    have hread : (blk.drop buf.length).take bs.length = bs := by
      rw [sufEq, hH0, ← hu, List.append_assoc, drop_append_len rfl,
        take_append_len rfl]
    refine ⟨⟨blk, buf.length + bs.length,
      emitFrames comp (tailBlks (.sc bs :: rest) buf) ++ extra, false⟩,
      ?_, ?_⟩
    · unfold loadBytes
      unfold preparePtr
      rw [if_pos (by simp only; omega)]
      unfold readAt
      simp only
      rw [if_pos (by omega)]
      rw [hread]
    · rw [hbuf2]
      refine ⟨?_, ?_, ?_, ?_, ?_, ?_, rfl⟩
      · intro hcon
        rw [List.append_eq_nil] at hcon
        exact bufNe hcon.1
      · rw [List.length_append]
        omega
      · simp [List.length_append]
      · rw [lenEq, hH0]
      · show blk.drop (buf ++ bs).length = _
        rw [← hH0, List.length_append, ← List.drop_drop, ← List.drop_drop,
          sufEq]
      · rw [hT0]

theorem headBlk_congr {ops ops' : List Op} {buf : List Nat}
    (hw : wrun ops buf = wrun ops' buf) :
    headBlk ops buf = headBlk ops' buf := by
  unfold headBlk
  rw [hw]

theorem tailBlks_congr {ops ops' : List Op} {buf : List Nat}
    (hw : wrun ops buf = wrun ops' buf) :
    tailBlks ops buf = tailBlks ops' buf := by
  unfold tailBlks
  rw [hw]

theorem SimInv_congr (comp : List Nat → List Nat) (ops ops' : List Op)
    (buf extra : List Nat) (ls : LoadState)
    (hw : wrun ops buf = wrun ops' buf)
    (h : SimInv comp ops buf extra ls) : SimInv comp ops' buf extra ls := by
  obtain ⟨a, b, c, d, e, f, g⟩ := h
  exact ⟨a, b, c, by rw [← headBlk_congr hw]; exact d,
    by rw [← headBlk_congr hw]; exact e,
    by rw [← tailBlks_congr hw]; exact f, g⟩

theorem wop_bin_zero (bs buf : List Nat) (h : binIters bs.length = 0) :
    wop (.bin bs) buf = wop (.sc bs) buf := by
  show wbin bs buf = _
  unfold wbin
  rw [h]
  rfl

/-- A `load_binary` under the invariant returns exactly the blob bytes
the writer placed, chunked over blocks exactly as the writer chunked
them. -/
theorem loadBinLoop_sim (comp decomp : List Nat → List Nat)
    (Hi : ∀ b, decomp (comp b) = b) (Hc : ∀ b, comp b ≠ [])
    (Hb : ∀ b, b.length ≤ BLOCK_BYTES →
      (comp b).length < lz4CompressBound BLOCK_BYTES) :
    ∀ (k : Nat) (bs : List Nat), k = binIters bs.length →
    ∀ rest : List Op, validOps rest →
    ∀ (buf extra : List Nat) (ls : LoadState),
      SimInv comp (.bin bs :: rest) buf extra ls →
      ∃ ls2, loadBinLoop decomp k bs.length ls = .ok (bs, ls2) ∧
        SimInv comp rest (wop (.bin bs) buf).2 extra ls2 := by
  intro k
  induction k with
  | zero =>
    intro bs hk rest hv buf extra ls hinv
    have hwop : wop (.bin bs) buf = wop (.sc bs) buf :=
      wop_bin_zero bs buf hk.symm
    have hwr : wrun (.bin bs :: rest) buf =
        wrun (.sc bs :: rest) buf := by
      rw [wrun_cons, wrun_cons, hwop]
    have hbs : bs.length ≤ BLOCK_BYTES := by
      have hB : BLOCK_BYTES = 65536 := rfl
      simp only [binIters, hB] at hk ⊢
      omega
    obtain ⟨ls2, h1, h2⟩ := loadBytes_sim comp decomp Hi Hc Hb bs hbs rest
      hv buf extra ls (SimInv_congr comp _ _ buf extra ls hwr hinv)
    refine ⟨ls2, ?_, ?_⟩
    · show loadBytes decomp bs.length ls = _
      exact h1
    · rw [hwop]
      exact h2
  | succ k ih =>
    intro bs hk rest hv buf extra ls hinv
    have hB : BLOCK_BYTES = 65536 := rfl
    have hgt : bs.length > BLOCK_BYTES := by
      simp only [binIters, hB] at hk ⊢
      omega
    have htk : (bs.take BLOCK_BYTES).length = BLOCK_BYTES := by
      rw [List.length_take]
      simp only [hB]
      omega
    have hdk : k = binIters (bs.drop BLOCK_BYTES).length := by
      simp only [binIters, hB, List.length_drop] at hk ⊢
      omega
    have hbufpos : 0 < buf.length := List.length_pos.mpr hinv.bufNe
    have hwop1 : wop (.sc (bs.take BLOCK_BYTES)) buf =
        ([buf], bs.take BLOCK_BYTES) := by
      simp only [wop, htk]
      rw [if_pos (by omega)]
    have hbinrw : wop (.bin bs) buf =
        (buf :: (wop (.bin (bs.drop BLOCK_BYTES))
            (bs.take BLOCK_BYTES)).1,
          (wop (.bin (bs.drop BLOCK_BYTES)) (bs.take BLOCK_BYTES)).2) := by
      show wbin bs buf = _
      unfold wbin
      rw [← hk]
      show (buf :: (wbinLoop k (bs.drop BLOCK_BYTES)
          (bs.take BLOCK_BYTES)).1,
        (wbinLoop k (bs.drop BLOCK_BYTES) (bs.take BLOCK_BYTES)).2) = _
      rw [show wop (.bin (bs.drop BLOCK_BYTES)) (bs.take BLOCK_BYTES) =
        wbinLoop (binIters (bs.drop BLOCK_BYTES).length)
          (bs.drop BLOCK_BYTES) (bs.take BLOCK_BYTES) from rfl, ← hdk]
    have hwr : wrun (.bin bs :: rest) buf =
        wrun (.sc (bs.take BLOCK_BYTES) :: .bin (bs.drop BLOCK_BYTES)
          :: rest) buf := by
      rw [wrun_cons, wrun_cons, hbinrw, hwop1]
      rw [wrun_cons]
      simp [List.append_assoc]
    have hv2 : validOps (.bin (bs.drop BLOCK_BYTES) :: rest) := by
      intro o ho
      rcases List.mem_cons.mp ho with h | h
      · subst h
        exact trivial
      · exact hv o h
    obtain ⟨ls1, h1, h2⟩ := loadBytes_sim comp decomp Hi Hc Hb
      (bs.take BLOCK_BYTES) (by omega)
      (.bin (bs.drop BLOCK_BYTES) :: rest) hv2 buf extra ls
      (SimInv_congr comp _ _ buf extra ls hwr hinv)
    rw [hwop1] at h2
    obtain ⟨ls2, h3, h4⟩ := ih (bs.drop BLOCK_BYTES) hdk rest hv
      (bs.take BLOCK_BYTES) extra ls1 h2
    rw [htk] at h1
    rw [List.length_drop] at h3
    refine ⟨ls2, ?_, ?_⟩
    · show (match loadBytes decomp BLOCK_BYTES ls with
        | Except.error e => Except.error e
        | Except.ok (chunk, s1) =>
          match loadBinLoop decomp k (bs.length - BLOCK_BYTES) s1 with
          | Except.error e => Except.error e
          | Except.ok (r2, s2) => Except.ok (chunk ++ r2, s2)) = _
      rw [h1]
      show (match loadBinLoop decomp k (bs.length - BLOCK_BYTES) ls1 with
        | Except.error e => Except.error e
        | Except.ok (r2, s2) =>
          Except.ok (bs.take BLOCK_BYTES ++ r2, s2)) = _
      rw [h3]
      show Except.ok (bs.take BLOCK_BYTES ++ bs.drop BLOCK_BYTES, ls2) = _
      rw [List.take_append_drop]
    · rw [hbinrw]
      exact h4

/-- Replaying the writer's operation list on the load side under the
simulation invariant succeeds and returns exactly the bytes each
operation handed the writer, in order. -/
theorem runLoadOps_sim (comp decomp : List Nat → List Nat)
    (Hi : ∀ b, decomp (comp b) = b) (Hc : ∀ b, comp b ≠ [])
    (Hb : ∀ b, b.length ≤ BLOCK_BYTES →
      (comp b).length < lz4CompressBound BLOCK_BYTES) :
    ∀ ops : List Op, validOps ops →
    ∀ (buf extra : List Nat) (ls : LoadState),
      SimInv comp ops buf extra ls →
      ∃ ls2, runLoadOps decomp ops ls = .ok (ops.map Op.payload, ls2) ∧
        SimInv comp [] (wrun ops buf).2 extra ls2 := by
  intro ops
  induction ops with
  | nil =>
    intro _ buf extra ls hinv
    exact ⟨ls, rfl, hinv⟩
  | cons op rest ih =>
    intro hv buf extra ls hinv
    have hvr : validOps rest := fun o ho => hv o (List.mem_cons_of_mem _ ho)
    have hw2 : (wrun (op :: rest) buf).2 = (wrun rest (wop op buf).2).2 := by
      rw [wrun_cons]
    cases op with
    | sc bs =>
      have hvo : validOp (.sc bs) := hv _ (List.mem_cons_self _ _)
      have hbs : bs.length ≤ BLOCK_BYTES := le_of_lt hvo.2
      obtain ⟨ls1, h1, h2⟩ := loadBytes_sim comp decomp Hi Hc Hb bs hbs
        rest hvr buf extra ls hinv
      obtain ⟨ls2, h3, h4⟩ := ih hvr (wop (.sc bs) buf).2 extra ls1 h2
      refine ⟨ls2, ?_, ?_⟩
      · show (match loadBytes decomp bs.length ls with
          | Except.error e => Except.error e
          | Except.ok (b, s1) =>
            match runLoadOps decomp rest s1 with
            | Except.error e => Except.error e
            | Except.ok (l, s2) => Except.ok (b :: l, s2)) = _
        rw [h1]
        show (match runLoadOps decomp rest ls1 with
          | Except.error e => Except.error e
          | Except.ok (l, s2) => Except.ok (bs :: l, s2)) = _
        rw [h3]
        rfl
      · rw [hw2]
        exact h4
    | bin bs =>
      obtain ⟨ls1, h1, h2⟩ := loadBinLoop_sim comp decomp Hi Hc Hb
        (binIters bs.length) bs rfl rest hvr buf extra ls hinv
      obtain ⟨ls2, h3, h4⟩ := ih hvr (wop (.bin bs) buf).2 extra ls1 h2
      refine ⟨ls2, ?_, ?_⟩
      · show (match loadBinary decomp bs.length ls with
          | Except.error e => Except.error e
          | Except.ok (b, s1) =>
            match runLoadOps decomp rest s1 with
            | Except.error e => Except.error e
            | Except.ok (l, s2) => Except.ok (b :: l, s2)) = _
        show (match loadBinLoop decomp (binIters bs.length) bs.length ls with
          | Except.error e => Except.error e
          | Except.ok (b, s1) =>
            match runLoadOps decomp rest s1 with
            | Except.error e => Except.error e
            | Except.ok (l, s2) => Except.ok (b :: l, s2)) = _
        rw [h1]
        show (match runLoadOps decomp rest ls1 with
          | Except.error e => Except.error e
          | Except.ok (l, s2) => Except.ok (bs :: l, s2)) = _
        rw [h3]
        rfl
      · rw [hw2]
        exact h4

/-- `initBlock` on a full writer stream takes the current-format path,
loads the first block (the writer's first block behind its patched
header), and the header-sized read every loader performs first leaves
the reader in simulation with the writer about to run `ops` with the
header bytes accumulated in its first block. -/
theorem initLoad_sim (comp decomp : List Nat → List Nat)
    (Hi : ∀ b, decomp (comp b) = b) (Hc : ∀ b, comp b ≠ [])
    (Hb : ∀ b, b.length ≤ BLOCK_BYTES →
      (comp b).length < lz4CompressBound BLOCK_BYTES)
    (h0 : IndexHeaderStruct) (hwf : HdrWF h0)
    (hnl : ¬(h0.signature[13]? = some 49 ∧ h0.signature[15]? = some 48))
    (ops : List Op) (hv : validOps ops)
    (hbody : headSz < (headBlk ops (encodeHeader h0)).length) :
    ∃ s0 hb ls1,
      initBlock decomp (wstream comp (encodeHeader h0) ops) = .ok s0 ∧
      loadBytes decomp headSz s0 = .ok (hb, ls1) ∧
      SimInv comp ops (encodeHeader h0) (encLE 8 0) ls1 := by
  have hlen : (encodeHeader h0).length = headSz := encodeHeader_length h0 hwf
  obtain ⟨bt, hbt⟩ := headBlk_lead ops (encodeHeader h0)
  have hh80 : headSz = 80 := rfl
  have hdNe : encodeHeader h0 ≠ [] := by
    intro hcon
    rw [hcon] at hlen
    simp [hh80] at hlen
  have hdLe : (encodeHeader h0).length ≤ BLOCK_BYTES := by
    rw [hlen]
    decide
  have hprops := headBlk_props ops (encodeHeader h0) hv hdNe hdLe
  have hB : BLOCK_BYTES = 65536 := rfl
  have hbtlen : bt.length ≤ BLOCK_BYTES := by
    have h2 := hprops.2
    rw [← hbt, List.length_append, hlen] at h2
    omega
  have hbtne : bt ≠ [] := by
    intro hcon
    rw [← hbt, hcon, List.append_nil, hlen] at hbody
    exact lt_irrefl _ hbody
  have hclt : (comp bt).length < lz4CompressBound BLOCK_BYTES := Hb bt hbtlen
  have hbound : lz4CompressBound BLOCK_BYTES = 65809 := rfl
  have hclt64 : (comp bt).length < 2 ^ 64 := by
    have h2 : (2 : Nat) ^ 64 = 18446744073709551616 := by norm_num
    omega
  have hcne : (comp bt).length ≠ 0 := by
    intro hcon
    exact Hc bt (List.length_eq_zero.mp hcon)
  have hwf2 : HdrWF { h0 with compression := 1, first_block_size := (comp bt).length } := HdrWF_patched h0 hwf hclt64
  have hpe : patchHdr (encodeHeader h0) (comp bt).length = encodeHeader { h0 with compression := 1, first_block_size := (comp bt).length } :=
    patchHdr_encodeHeader h0 hwf (comp bt).length
  have hplen : (patchHdr (encodeHeader h0) (comp bt).length).length =
      headSz := by
    rw [hpe]
    exact encodeHeader_length _ hwf2
  have hstr : wstream comp (encodeHeader h0) ops =
      patchHdr (encodeHeader h0) (comp bt).length ++
        (comp bt ++ (emitFrames comp (tailBlks ops (encodeHeader h0)) ++
          encLE 8 0)) := by
    unfold wstream
    rw [blocks_decomp]
    show firstFrame comp (headBlk ops (encodeHeader h0)) ++
      emitFrames comp (tailBlks ops (encodeHeader h0)) ++ encLE 8 0 = _
    unfold firstFrame
    rw [← hbt, take_append_len hlen, drop_append_len hlen]
    simp [List.append_assoc]
  have hTake : (patchHdr (encodeHeader h0) (comp bt).length ++
      (comp bt ++ (emitFrames comp (tailBlks ops (encodeHeader h0)) ++
        encLE 8 0))).take headSz =
      patchHdr (encodeHeader h0) (comp bt).length := take_append_len hplen
  have hDrop : (patchHdr (encodeHeader h0) (comp bt).length ++
      (comp bt ++ (emitFrames comp (tailBlks ops (encodeHeader h0)) ++
        encLE 8 0))).drop headSz =
      comp bt ++ (emitFrames comp (tailBlks ops (encodeHeader h0)) ++
        encLE 8 0) := drop_append_len hplen
  have hleg : ¬((patchHdr (encodeHeader h0) (comp bt).length)[13]? =
        some 49 ∧
      (patchHdr (encodeHeader h0) (comp bt).length)[15]? = some 48) := by
    rw [hpe, encodeHeader_get13 _ hwf2, encodeHeader_get15 _ hwf2]
    exact hnl
  have hfbs : ((patchHdr (encodeHeader h0) (comp bt).length).drop 72).take
      8 = encLE 8 (comp bt).length := by
    rw [hpe]
    exact encodeHeader_fbs_slice _ hwf2
  have hlb : loadBlock decomp (comp bt).length
      (comp bt ++ (emitFrames comp (tailBlks ops (encodeHeader h0)) ++
        encLE 8 0)) =
      .ok (bt, emitFrames comp (tailBlks ops (encodeHeader h0)) ++
        encLE 8 0) := by
    unfold loadBlock
    rw [if_neg (by omega)]
    rw [if_neg (by
      push_neg
      refine ⟨hcne, ?_⟩
      rw [List.length_append]
      omega)]
    rw [take_append_len rfl, Hi]
    rw [if_neg (by
      push_neg
      refine ⟨fun hcon => hbtne (List.length_eq_zero.mp hcon), ?_⟩
      exact hbtlen)]
    rw [drop_append_len rfl]
  have hinit : initBlock decomp (wstream comp (encodeHeader h0) ops) =
      .ok ⟨patchHdr (encodeHeader h0) (comp bt).length ++ bt, 0,
        emitFrames comp (tailBlks ops (encodeHeader h0)) ++ encLE 8 0,
        false⟩ := by
    rw [hstr]
    unfold initBlock
    rw [hTake, hDrop]
    rw [if_neg (by
      rw [List.length_append, hplen]
      omega)]
    rw [if_neg hleg]
    rw [hfbs, decLE_encLE64 hclt64, hlb]
  have hpos : loadBytes decomp headSz
      ⟨patchHdr (encodeHeader h0) (comp bt).length ++ bt, 0,
        emitFrames comp (tailBlks ops (encodeHeader h0)) ++ encLE 8 0,
        false⟩ =
      .ok (patchHdr (encodeHeader h0) (comp bt).length,
        ⟨patchHdr (encodeHeader h0) (comp bt).length ++ bt, headSz,
          emitFrames comp (tailBlks ops (encodeHeader h0)) ++ encLE 8 0,
          false⟩) := by
    unfold loadBytes preparePtr
    rw [if_pos (by
      simp only
      rw [List.length_append, hplen]
      omega)]
    unfold readAt
    simp only
    rw [if_pos (by rw [List.length_append, hplen]; omega)]
    rw [List.drop_zero, take_append_len hplen, Nat.zero_add]
  refine ⟨_, _, _, hinit, hpos, ?_⟩
  refine ⟨hdNe, hdLe, hlen.symm, ?_, ?_, rfl, rfl⟩
  · show (patchHdr (encodeHeader h0) (comp bt).length ++ bt).length = _
    rw [List.length_append, hplen, ← hbt, List.length_append, hlen]
  · show (patchHdr (encodeHeader h0) (comp bt).length ++
      bt).drop (encodeHeader h0).length = _
    rw [hlen, drop_append_len hplen, ← hbt, drop_append_len hlen]

/-- C9: values never straddle a block boundary and both sides agree on
chunking.  Writer side: after any prefix of the operations, `runOps`
(the embedded `SaveArchive::save`/`save_binary` sequence) has succeeded
and its write offset is at most the block capacity, because a value
that would not fit triggers a flush first.  Reader side: from any state
in simulation with the writer, replaying the operations through the
`LoadArchive` primitives succeeds and returns for every operation
exactly the bytes the writer placed for it — the reader's block
advances land its cursor exactly where each value begins. -/
theorem c9_no_straddle (comp decomp : List Nat → List Nat)
    (Hi : ∀ b, decomp (comp b) = b) (Hc : ∀ b, comp b ≠ [])
    (Hb : ∀ b, b.length ≤ BLOCK_BYTES →
      (comp b).length < lz4CompressBound BLOCK_BYTES)
    (ops : List Op) (hv : validOps ops) (buf : List Nat)
    (hbne : buf ≠ []) (hble : buf.length ≤ BLOCK_BYTES) :
    (∀ pre post : List Op, ops = pre ++ post → ∀ out : List Nat,
      ∃ s', runOps comp pre ⟨buf, false, out⟩ = .ok s' ∧
        s'.buffer.length ≤ BLOCK_BYTES) ∧
    (∀ (extra : List Nat) (ls : LoadState), SimInv comp ops buf extra ls →
      ∃ ls2, runLoadOps decomp ops ls = .ok (ops.map Op.payload, ls2)) := by
  constructor
  · intro pre post hsplit out
    have hvp : validOps pre := by
      intro o ho
      exact hv o (by rw [hsplit]; exact List.mem_append_left _ ho)
    refine ⟨_, runOps_spec comp Hc pre ⟨buf, false, out⟩ hvp
      (by intro h; simp at h), ?_⟩
    exact (wrun_props pre buf hvp hbne hble).2.1
  · intro extra ls hinv
    obtain ⟨ls2, h1, -⟩ := runLoadOps_sim comp decomp Hi Hc Hb ops hv
      buf extra ls hinv
    exact ⟨ls2, h1⟩

theorem c9_witness :
    ((∃ s', runOps compX [Op.sc [5]] ⟨[0], false, []⟩ = .ok s' ∧
        s'.buffer.length ≤ BLOCK_BYTES) ∧
      ∃ ls2, runLoadOps decompX [Op.sc [5]] ⟨[9, 5], 1, [], false⟩ =
        .ok ([[5]], ls2)) := by
  have Hi : ∀ b, decompX (compX b) = b := fun b => rfl
  have Hc : ∀ b, compX b ≠ [] := fun b => List.cons_ne_nil 7 b
  have Hb : ∀ b : List Nat, b.length ≤ BLOCK_BYTES →
      (compX b).length < lz4CompressBound BLOCK_BYTES := by
    intro b hb
    show (7 :: b).length < lz4CompressBound BLOCK_BYTES
    have h1 : lz4CompressBound BLOCK_BYTES = 65809 := rfl
    have h2 : BLOCK_BYTES = 65536 := rfl
    simp only [List.length_cons]
    omega
  have hv : validOps [Op.sc [5]] := by
    intro o ho
    rw [List.mem_singleton] at ho
    subst ho
    exact ⟨by decide, by decide⟩
  have h := c9_no_straddle compX decompX Hi Hc Hb [Op.sc [5]] hv [0]
    (by decide) (by decide)
  exact ⟨h.1 [Op.sc [5]] [] rfl [],
    h.2 [] ⟨[9, 5], 1, [], false⟩
      ⟨by decide, by decide, rfl, rfl, rfl, rfl, rfl⟩⟩

/-- Entry-spine append. -/
def pappend : Val → Val → Val
  | .pcons k v tl, y => .pcons k v (pappend tl y)
  | _, y => y

/-- `k` is strictly above every key of the entry spine, in both
directions of the comparator. -/
def keyAbove (k : Val) : Val → Bool
  | .pcons k2 _ tl => valLt k2 k && !valLt k k2 && keyAbove k tl
  | _ => true

/-- Every key of the second spine is strictly above every key of the
first (the state of the map loader's accumulator relative to the
entries still to arrive). -/
def keysSep (acc : Val) : Val → Bool
  | .pcons k _ tl => keyAbove k acc && keysSep acc tl
  | _ => true

/-- The value is an entry spine. -/
def isPSpine : Val → Bool
  | .pnil => true
  | .pcons _ _ tl => isPSpine tl
  | _ => false

theorem bnot_true {b : Bool} (h : (!b) = true) : b = false := by
  cases b
  · rfl
  · exact Bool.noConfusion h

theorem pappend_snoc (k v tl : Val) : ∀ acc : Val,
    pappend (pappend acc (.pcons k v .pnil)) tl =
      pappend acc (.pcons k v tl) := by
  intro acc
  induction acc
  case pcons k2 v2 tl2 ihk2 ihv2 ihtl2 =>
    show Val.pcons k2 v2 (pappend (pappend tl2 (.pcons k v .pnil)) tl) =
      Val.pcons k2 v2 (pappend tl2 (.pcons k v tl))
    rw [ihtl2]
  all_goals rfl

theorem keyAbove_pappend (k : Val) : ∀ a b : Val,
    keyAbove k (pappend a b) = (keyAbove k a && keyAbove k b) := by
  intro a
  induction a
  case pcons k2 v2 tl2 ihk2 ihv2 ihtl2 =>
    intro b
    show (valLt k2 k && !valLt k k2 && keyAbove k (pappend tl2 b)) =
      ((valLt k2 k && !valLt k k2 && keyAbove k tl2) && keyAbove k b)
    rw [ihtl2 b]
    exact (Bool.and_assoc _ _ _).symm
  all_goals exact fun b => (Bool.true_and _).symm

theorem keysSep_pappend (a b : Val) : ∀ l : Val,
    keysSep (pappend a b) l = (keysSep a l && keysSep b l) := by
  intro l
  induction l
  case pcons k2 v2 tl2 ihk2 ihv2 ihtl2 =>
    show (keyAbove k2 (pappend a b) && keysSep (pappend a b) tl2) =
      ((keyAbove k2 a && keysSep a tl2) && (keyAbove k2 b && keysSep b tl2))
    rw [ihtl2, keyAbove_pappend]
    simp [Bool.and_assoc, Bool.and_left_comm, Bool.and_comm]
  all_goals rfl

theorem keysSep_single (k v : Val) : ∀ l : Val,
    keysSep (.pcons k v .pnil) l = keyBelow k l := by
  intro l
  induction l
  case pcons k2 v2 tl2 ihk2 ihv2 ihtl2 =>
    show ((valLt k k2 && !valLt k2 k && true) &&
        keysSep (.pcons k v .pnil) tl2) =
      (valLt k k2 && !valLt k2 k && keyBelow k tl2)
    rw [ihtl2, Bool.and_true]
  all_goals rfl

theorem keysSep_pnil : ∀ l : Val, keysSep .pnil l = true := by
  intro l
  induction l
  case pcons k2 v2 tl2 ihk2 ihv2 ihtl2 =>
    show (keyAbove k2 .pnil && keysSep .pnil tl2) = true
    rw [ihtl2]
    rfl
  all_goals rfl

theorem isPSpine_pappend : ∀ a b : Val, isPSpine a = true →
    isPSpine b = true → isPSpine (pappend a b) = true := by
  intro a
  induction a
  case pnil => exact fun b _ hb => hb
  case pcons k v tl ihk ihv ihtl =>
    intro b ha hb
    show isPSpine (pappend tl b) = true
    exact ihtl b ha hb
  all_goals exact fun b ha _ => absurd ha (by exact Bool.noConfusion)

theorem pappend_pnil : ∀ acc : Val, isPSpine acc = true →
    pappend acc .pnil = acc := by
  intro acc
  induction acc
  case pnil => exact fun _ => rfl
  case pcons k v tl ihk ihv ihtl =>
    intro h
    show Val.pcons k v (pappend tl .pnil) = Val.pcons k v tl
    rw [ihtl h]
  all_goals exact fun h => absurd h (by exact Bool.noConfusion)

theorem mapInsert_above (k v : Val) : ∀ acc : Val, isPSpine acc = true →
    keyAbove k acc = true →
    mapInsert k v acc = pappend acc (.pcons k v .pnil) := by
  intro acc
  induction acc
  case pnil => exact fun _ _ => rfl
  case pcons k2 v2 tl2 ihk2 ihv2 ihtl2 =>
    intro hs h
    have h2 : ((valLt k2 k && !valLt k k2) && keyAbove k tl2) = true := h
    rw [Bool.and_eq_true, Bool.and_eq_true] at h2
    have hnlt : valLt k k2 = false := bnot_true h2.1.2
    simp only [mapInsert, hnlt, h2.1.1]
    simp only [Bool.false_eq_true, if_false, if_true]
    show Val.pcons k2 v2 (mapInsert k v tl2) = _
    rw [ihtl2 hs h2.2]
    rfl
  all_goals exact fun hs _ => absurd hs (by exact Bool.noConfusion)

theorem vtake_nil : ∀ n : Nat, vtake n .vnil = .vnil := by
  intro n
  cases n
  · rfl
  · rfl

theorem vresize_nil (n : Nat) (t : Ty) :
    vresize .vnil n t = vrep n (defaultVal t) := by
  unfold vresize
  rw [vtake_nil]
  rfl

theorem wrun_append : ∀ (a b : List Op) (buf : List Nat),
    wrun (a ++ b) buf =
      ((wrun a buf).1 ++ (wrun b (wrun a buf).2).1,
        (wrun b (wrun a buf).2).2) := by
  intro a
  induction a with
  | nil =>
    intro b buf
    show wrun b buf = ([] ++ (wrun b buf).1, (wrun b buf).2)
    rw [List.nil_append]
  | cons op rest ih =>
    intro b buf
    rw [List.cons_append, wrun_cons, wrun_cons, ih]
    simp [List.append_assoc]

theorem decodeLeaf_rawBytes : ∀ (t : Ty) (a : Val),
    (leafWidth t).isSome = true → wt t a = true →
    decodeLeaf t (rawBytes a) = a := by
  intro t a hl h
  cases t with
  | scalarT w =>
    cases a
    case scalar w2 n =>
      simp only [wt, Bool.and_eq_true, beq_iff_eq, decide_eq_true_eq] at h
      obtain ⟨⟨⟨h1, h2⟩, h3⟩, h4⟩ := h
      subst h1
      show Val.scalar w (decLE (encLE w n)) = Val.scalar w n
      rw [decLE_encLE_of_lt h4]
    all_goals exact absurd h (by simp [wt])
  | enumT =>
    cases a
    case enumV n =>
      simp only [wt, decide_eq_true_eq] at h
      show Val.enumV (decLE (encLE 4 n)) = Val.enumV n
      rw [decLE_encLE_of_lt (by norm_num at h ⊢; exact h)]
    all_goals exact absurd h (by simp [wt])
  | vecT t => simp [leafWidth] at hl
  | mapT k v => simp [leafWidth] at hl
  | arrT t n => simp [leafWidth] at hl
  | blobT n => simp [leafWidth] at hl
  | ptrT => simp [leafWidth] at hl

theorem rawBytes_width (t : Ty) (a : Val) (h : wt t a = true) :
    (rawBytes a).length = arrWidth t := by
  cases t <;> cases a <;> simp_all [wt, rawBytes, arrWidth, leafWidth,
    encLE_length] <;> omega

theorem decodeArr_rawSpine (t : Ty) (hl : (leafWidth t).isSome = true) :
    ∀ l : Val, wtElems t l = true →
    decodeArr t (arrWidth t) (vlen l) (rawSpine l) = l := by
  intro l
  induction l
  case vnil => exact fun _ => rfl
  case vcons a tl iha ihtl =>
    intro h
    rw [wtElems, Bool.and_eq_true] at h
    have ha : (rawBytes a).length = arrWidth t := rawBytes_width t a h.1
    show Val.vcons
      (decodeLeaf t ((rawBytes a ++ rawSpine tl).take (arrWidth t)))
      (decodeArr t (arrWidth t) (vlen tl)
        ((rawBytes a ++ rawSpine tl).drop (arrWidth t))) = Val.vcons a tl
    rw [take_append_len ha, drop_append_len ha, ihtl h.2,
      decodeLeaf_rawBytes t a hl h.1]
  all_goals exact fun h => absurd h (by simp [wtElems])

theorem wrun_append_snd (a b : List Op) (buf : List Nat) :
    (wrun (a ++ b) buf).2 = (wrun b (wrun a buf).2).2 := by
  rw [wrun_append]

/-- The `Serializer` load dispatch, run on the stream the save dispatch
produced, under the reader-writer simulation invariant: each registered
type's loader returns exactly the saved value and re-establishes the
invariant.  Stated together with the element-loop and entry-loop
variants for the induction; the map loader's accumulator is tracked
through `pappend`/`keysSep` (entries arrive in sorted order, so each
`map_val[key] = value` appends at the back). -/
theorem loadValArch_sim (comp decomp : List Nat → List Nat)
    (Hi : ∀ b, decomp (comp b) = b) (Hc : ∀ b, comp b ≠ [])
    (Hb : ∀ b, b.length ≤ BLOCK_BYTES →
      (comp b).length < lz4CompressBound BLOCK_BYTES) :
    ∀ v : Val,
    (∀ t : Ty, wt t v = true → noPtrTy t = true →
      ∀ rest : List Op, validOps rest →
      ∀ (buf extra : List Nat) (ls : LoadState),
        SimInv comp (valOps v ++ rest) buf extra ls →
        ∃ ls2, loadValArch decomp t (defaultVal t) ls = .ok (v, ls2) ∧
          SimInv comp rest (wrun (valOps v) buf).2 extra ls2) ∧
    (∀ t : Ty, wtElems t v = true → noPtrTy t = true →
      ∀ rest : List Op, validOps rest →
      ∀ (buf extra : List Nat) (ls : LoadState),
        SimInv comp (valOps v ++ rest) buf extra ls →
        ∃ ls2, loadElemsF (fun p s => loadValArch decomp t p s) (vlen v)
            (vrep (vlen v) (defaultVal t)) ls = .ok (v, ls2) ∧
          SimInv comp rest (wrun (valOps v) buf).2 extra ls2) ∧
    (∀ tk tv : Ty, wtEntries tk tv v = true → noPtrTy tk = true →
      noPtrTy tv = true → sortedKeys v = true →
      ∀ acc : Val, isPSpine acc = true → keysSep acc v = true →
      ∀ rest : List Op, validOps rest →
      ∀ (buf extra : List Nat) (ls : LoadState),
        SimInv comp (valOps v ++ rest) buf extra ls →
        ∃ ls2, loadEntriesF (fun p s => loadValArch decomp tk p s)
            (fun p s => loadValArch decomp tv p s) (defaultVal tk)
            (defaultVal tv) (plen v) acc ls = .ok (pappend acc v, ls2) ∧
          SimInv comp rest (wrun (valOps v) buf).2 extra ls2) := by
  intro v
  induction v with
  | scalar w n =>
    refine ⟨?_, ?_, ?_⟩
    · intro t ht hnp rest hrest buf extra ls hinv
      cases t
      case scalarT tw =>
        simp only [wt, Bool.and_eq_true, beq_iff_eq,
          decide_eq_true_eq] at ht
        obtain ⟨⟨⟨h1, h2⟩, h3⟩, h4⟩ := ht
        subst h1
        obtain ⟨ls2, ha1, ha2⟩ := loadBytes_sim comp decomp Hi Hc Hb
          (encLE tw n) (by rw [encLE_length]; omega) rest hrest buf extra
          ls hinv
        rw [encLE_length] at ha1
        refine ⟨ls2, ?_, ha2⟩
        show (match loadBytes decomp tw ls with
          | Except.error e => Except.error e
          | Except.ok (bs, s1) =>
            Except.ok (Val.scalar tw (decLE bs), s1)) = _
        conv_lhs => rw [ha1]
        simp only [decLE_encLE_of_lt h4]
      all_goals simp [wt] at ht
    · intro t ht hnp rest hrest buf extra ls hinv
      simp [wtElems] at ht
    · intro tk tv ht hnpk hnpv hsort acc hps hsep rest hrest buf extra
        ls hinv
      simp [wtEntries] at ht
  | enumV n =>
    refine ⟨?_, ?_, ?_⟩
    · intro t ht hnp rest hrest buf extra ls hinv
      cases t
      case enumT =>
        simp only [wt, decide_eq_true_eq] at ht
        have h4 : n < 256 ^ 4 := by norm_num at ht ⊢; exact ht
        obtain ⟨ls2, ha1, ha2⟩ := loadBytes_sim comp decomp Hi Hc Hb
          (encLE 4 n) (by rw [encLE_length]; decide) rest hrest buf extra
          ls hinv
        rw [encLE_length] at ha1
        refine ⟨ls2, ?_, ha2⟩
        show (match loadBytes decomp 4 ls with
          | Except.error e => Except.error e
          | Except.ok (bs, s1) => Except.ok (Val.enumV (decLE bs), s1)) = _
        conv_lhs => rw [ha1]
        simp only [decLE_encLE_of_lt h4]
      all_goals simp [wt] at ht
    · intro t ht hnp rest hrest buf extra ls hinv
      simp [wtElems] at ht
    · intro tk tv ht hnpk hnpv hsort acc hps hsep rest hrest buf extra
        ls hinv
      simp [wtEntries] at ht
  | blobV bs =>
    refine ⟨?_, ?_, ?_⟩
    · intro t ht hnp rest hrest buf extra ls hinv
      cases t
      case blobT n =>
        simp only [wt, Bool.and_eq_true, beq_iff_eq] at ht
        obtain ⟨h1, -⟩ := ht
        subst h1
        obtain ⟨ls2, ha1, ha2⟩ := loadBinLoop_sim comp decomp Hi Hc Hb
          (binIters bs.length) bs rfl rest hrest buf extra ls hinv
        refine ⟨ls2, ?_, ha2⟩
        show (match loadBinLoop decomp (binIters bs.length) bs.length ls
            with
          | Except.error e => Except.error e
          | Except.ok (b2, s1) => Except.ok (Val.blobV b2, s1)) = _
        rw [ha1]
      all_goals simp [wt] at ht
    · intro t ht hnp rest hrest buf extra ls hinv
      simp [wtElems] at ht
    · intro tk tv ht hnpk hnpv hsort acc hps hsep rest hrest buf extra
        ls hinv
      simp [wtEntries] at ht
  | ptrV a =>
    refine ⟨?_, ?_, ?_⟩
    · intro t ht hnp rest hrest buf extra ls hinv
      cases t
      case ptrT => exact Bool.noConfusion hnp
      all_goals simp [wt] at ht
    · intro t ht hnp rest hrest buf extra ls hinv
      simp [wtElems] at ht
    · intro tk tv ht hnpk hnpv hsort acc hps hsep rest hrest buf extra
        ls hinv
      simp [wtEntries] at ht
  | vnil =>
    refine ⟨?_, ?_, ?_⟩
    · intro t ht hnp rest hrest buf extra ls hinv
      cases t <;> simp [wt] at ht
    · intro t ht hnp rest hrest buf extra ls hinv
      exact ⟨ls, rfl, hinv⟩
    · intro tk tv ht hnpk hnpv hsort acc hps hsep rest hrest buf extra
        ls hinv
      simp [wtEntries] at ht
  | pnil =>
    refine ⟨?_, ?_, ?_⟩
    · intro t ht hnp rest hrest buf extra ls hinv
      cases t <;> simp [wt] at ht
    · intro t ht hnp rest hrest buf extra ls hinv
      simp [wtElems] at ht
    · intro tk tv ht hnpk hnpv hsort acc hps hsep rest hrest buf extra
        ls hinv
      refine ⟨ls, ?_, hinv⟩
      show Except.ok (acc, ls) = Except.ok (pappend acc Val.pnil, ls)
      rw [pappend_pnil acc hps]
  | vcons a tl iha ihtl =>
    refine ⟨?_, ?_, ?_⟩
    · intro t ht hnp rest hrest buf extra ls hinv
      cases t <;> simp [wt] at ht
    · intro t ht hnp rest hrest buf extra ls hinv
      rw [wtElems, Bool.and_eq_true] at ht
      have hops : valOps (Val.vcons a tl) = valOps a ++ valOps tl := rfl
      rw [hops, List.append_assoc] at hinv
      obtain ⟨ls1, ha1, ha2⟩ := iha.1 t ht.1 hnp (valOps tl ++ rest)
        (validOps_append ((valOps_valid tl).2.1 t ht.2) hrest)
        buf extra ls hinv
      obtain ⟨ls2, hb1, hb2⟩ := ihtl.2.1 t ht.2 hnp rest hrest
        (wrun (valOps a) buf).2 extra ls1 ha2
      refine ⟨ls2, ?_, ?_⟩
      · show (match loadValArch decomp t (defaultVal t) ls with
          | Except.error e => Except.error e
          | Except.ok (v2, s1) =>
            match loadElemsF (fun p s => loadValArch decomp t p s)
                (vlen tl) (vrep (vlen tl) (defaultVal t)) s1 with
            | Except.error e => Except.error e
            | Except.ok (l2, s2) => Except.ok (Val.vcons v2 l2, s2)) = _
        rw [ha1]
        show (match loadElemsF (fun p s => loadValArch decomp t p s)
            (vlen tl) (vrep (vlen tl) (defaultVal t)) ls1 with
          | Except.error e => Except.error e
          | Except.ok (l2, s2) => Except.ok (Val.vcons a l2, s2)) = _
        rw [hb1]
      · rw [hops, wrun_append_snd]
        exact hb2
    · intro tk tv ht hnpk hnpv hsort acc hps hsep rest hrest buf extra
        ls hinv
      simp [wtEntries] at ht
  | pcons k1 v1 tl ihk ihv ihtl =>
    refine ⟨?_, ?_, ?_⟩
    · intro t ht hnp rest hrest buf extra ls hinv
      cases t <;> simp [wt] at ht
    · intro t ht hnp rest hrest buf extra ls hinv
      simp [wtElems] at ht
    · intro tk tv ht hnpk hnpv hsort acc hps hsep rest hrest buf extra
        ls hinv
      rw [wtEntries, Bool.and_eq_true, Bool.and_eq_true] at ht
      rw [sortedKeys, Bool.and_eq_true] at hsort
      have hsep2 : (keyAbove k1 acc && keysSep acc tl) = true := hsep
      rw [Bool.and_eq_true] at hsep2
      have hops : valOps (Val.pcons k1 v1 tl) =
          (valOps k1 ++ valOps v1) ++ valOps tl := rfl
      rw [hops, List.append_assoc, List.append_assoc] at hinv
      have hvtl : validOps (valOps tl ++ rest) :=
        validOps_append ((valOps_valid tl).2.2 tk tv ht.2) hrest
      obtain ⟨ls1, hk1, hk2⟩ := ihk.1 tk ht.1.1 hnpk
        (valOps v1 ++ (valOps tl ++ rest))
        (validOps_append ((valOps_valid v1).1 tv ht.1.2) hvtl)
        buf extra ls hinv
      obtain ⟨ls2, hv1r, hv2r⟩ := ihv.1 tv ht.1.2 hnpv
        (valOps tl ++ rest) hvtl (wrun (valOps k1) buf).2 extra ls1 hk2
      have hacc : mapInsert k1 v1 acc =
          pappend acc (.pcons k1 v1 .pnil) :=
        mapInsert_above k1 v1 acc hps hsep2.1
      have hps2 : isPSpine (pappend acc (.pcons k1 v1 .pnil)) = true :=
        isPSpine_pappend acc _ hps rfl
      have hsep3 : keysSep (pappend acc (.pcons k1 v1 .pnil)) tl =
          true := by
        rw [keysSep_pappend, keysSep_single, Bool.and_eq_true]
        exact ⟨hsep2.2, hsort.1⟩
      obtain ⟨ls3, htl1, htl2⟩ := ihtl.2.2 tk tv ht.2 hnpk hnpv hsort.2
        (pappend acc (.pcons k1 v1 .pnil)) hps2 hsep3 rest hrest
        (wrun (valOps v1) (wrun (valOps k1) buf).2).2 extra ls2 hv2r
      refine ⟨ls3, ?_, ?_⟩
      · show (match loadValArch decomp tk (defaultVal tk) ls with
          | Except.error e => Except.error e
          | Except.ok (kv, s1) =>
            match loadValArch decomp tv (defaultVal tv) s1 with
            | Except.error e => Except.error e
            | Except.ok (vv, s2) =>
              loadEntriesF (fun p s => loadValArch decomp tk p s)
                (fun p s => loadValArch decomp tv p s) (defaultVal tk)
                (defaultVal tv) (plen tl) (mapInsert kv vv acc) s2) = _
        rw [hk1]
        show (match loadValArch decomp tv (defaultVal tv) ls1 with
          | Except.error e => Except.error e
          | Except.ok (vv, s2) =>
            loadEntriesF (fun p s => loadValArch decomp tk p s)
              (fun p s => loadValArch decomp tv p s) (defaultVal tk)
              (defaultVal tv) (plen tl) (mapInsert k1 vv acc) s2) = _
        rw [hv1r]
        show loadEntriesF (fun p s => loadValArch decomp tk p s)
            (fun p s => loadValArch decomp tv p s) (defaultVal tk)
            (defaultVal tv) (plen tl) (mapInsert k1 v1 acc) ls2 = _
        rw [hacc, htl1, pappend_snoc]
      · rw [hops, wrun_append_snd, wrun_append_snd]
        exact htl2
  | vecV l ih =>
    refine ⟨?_, ?_, ?_⟩
    · intro t ht hnp rest hrest buf extra ls hinv
      cases t
      case vecT te =>
        simp only [wt, Bool.and_eq_true, decide_eq_true_eq] at ht
        have hrest2 : validOps (valOps l ++ rest) :=
          validOps_append ((valOps_valid l).2.1 te ht.1) hrest
        obtain ⟨ls1, h1, h2⟩ := loadBytes_sim comp decomp Hi Hc Hb
          (encLE 8 (vlen l)) (by rw [encLE_length]; decide)
          (valOps l ++ rest) hrest2 buf extra ls hinv
        rw [encLE_length] at h1
        obtain ⟨ls2, hb1, hb2⟩ := ih.2.1 te ht.1 hnp rest hrest
          (wop (.sc (encLE 8 (vlen l))) buf).2 extra ls1 h2
        refine ⟨ls2, ?_, hb2⟩
        show (match loadBytes decomp 8 ls with
          | Except.error e => Except.error e
          | Except.ok (cb, s1) =>
            match loadElemsF (fun p s => loadValArch decomp te p s)
                (decLE cb) (vresize Val.vnil (decLE cb) te) s1 with
            | Except.error e => Except.error e
            | Except.ok (l2, s2) => Except.ok (Val.vecV l2, s2)) = _
        conv_lhs => rw [h1]
        simp only [decLE_encLE64 ht.2, vresize_nil, hb1]
      all_goals simp [wt] at ht
    · intro t ht hnp rest hrest buf extra ls hinv
      simp [wtElems] at ht
    · intro tk tv ht hnpk hnpv hsort acc hps hsep rest hrest buf extra
        ls hinv
      simp [wtEntries] at ht
  | mapV l ih =>
    refine ⟨?_, ?_, ?_⟩
    · intro t ht hnp rest hrest buf extra ls hinv
      cases t
      case mapT tk tv =>
        simp only [wt, Bool.and_eq_true, decide_eq_true_eq] at ht
        simp only [noPtrTy, Bool.and_eq_true] at hnp
        have hrest2 : validOps (valOps l ++ rest) :=
          validOps_append ((valOps_valid l).2.2 tk tv ht.1.1) hrest
        obtain ⟨ls1, h1, h2⟩ := loadBytes_sim comp decomp Hi Hc Hb
          (encLE 8 (plen l)) (by rw [encLE_length]; decide)
          (valOps l ++ rest) hrest2 buf extra ls hinv
        rw [encLE_length] at h1
        obtain ⟨ls2, hc1, hc2⟩ := ih.2.2 tk tv ht.1.1 hnp.1 hnp.2 ht.2
          Val.pnil rfl (keysSep_pnil l) rest hrest
          (wop (.sc (encLE 8 (plen l))) buf).2 extra ls1 h2
        refine ⟨ls2, ?_, hc2⟩
        show (match loadBytes decomp 8 ls with
          | Except.error e => Except.error e
          | Except.ok (cb, s1) =>
            match loadEntriesF (fun p s => loadValArch decomp tk p s)
                (fun p s => loadValArch decomp tv p s) (defaultVal tk)
                (defaultVal tv) (decLE cb) Val.pnil s1 with
            | Except.error e => Except.error e
            | Except.ok (l2, s2) => Except.ok (Val.mapV l2, s2)) = _
        conv_lhs => rw [h1]
        simp only [decLE_encLE64 ht.1.2, hc1]
        rfl
      all_goals simp [wt] at ht
    · intro t ht hnp rest hrest buf extra ls hinv
      simp [wtElems] at ht
    · intro tk tv ht hnpk hnpv hsort acc hps hsep rest hrest buf extra
        ls hinv
      simp [wtEntries] at ht
  | arrV l ih =>
    refine ⟨?_, ?_, ?_⟩
    · intro t ht hnp rest hrest buf extra ls hinv
      cases t
      case arrT te n2 =>
        simp only [wt, Bool.and_eq_true, beq_iff_eq,
          decide_eq_true_eq] at ht
        obtain ⟨⟨⟨⟨hsome, helems⟩, hvn⟩, hn0⟩, hlt⟩ := ht
        subst hvn
        have hrsl : (rawSpine l).length = vlen l * arrWidth te :=
          rawSpine_length te l helems
        obtain ⟨ls2, ha1, ha2⟩ := loadBytes_sim comp decomp Hi Hc Hb
          (rawSpine l) (by rw [hrsl]; omega) rest hrest buf extra ls hinv
        rw [hrsl] at ha1
        refine ⟨ls2, ?_, ha2⟩
        show (match loadBytes decomp (vlen l * arrWidth te) ls with
          | Except.error e => Except.error e
          | Except.ok (bs, s1) =>
            Except.ok (Val.arrV (decodeArr te (arrWidth te) (vlen l) bs),
              s1)) = _
        rw [ha1]
        show Except.ok (Val.arrV (decodeArr te (arrWidth te) (vlen l)
          (rawSpine l)), ls2) = _
        rw [decodeArr_rawSpine te hsome l helems]
      all_goals simp [wt] at ht
    · intro t ht hnp rest hrest buf extra ls hinv
      simp [wtElems] at ht
    · intro tk tv ht hnpk hnpv hsort acc hps hsep rest hrest buf extra
        ls hinv
      simp [wtEntries] at ht

/-- C1 (round trip): for a well-typed, pointer-free value saved behind a
well-formed non-legacy header with compression field 0, loading the
saved stream back at the same type returns a structurally equal value —
provided the first block carries at least one byte of payload beyond
the header image (when the header is the whole first block, its
compressed body decompresses to zero bytes and the loader's
`decBytes <= 0` check rejects the stream, so a zero-length blob as the
sole saved value, or a blob longer than the remaining first-block
space as the first saved value, cannot be loaded back). -/
theorem c1_round_trip (comp decomp : List Nat → List Nat)
    (Hi : ∀ b, decomp (comp b) = b) (Hc : ∀ b, comp b ≠ [])
    (Hb : ∀ b, b.length ≤ BLOCK_BYTES →
      (comp b).length < lz4CompressBound BLOCK_BYTES)
    (h0 : IndexHeaderStruct) (hwf : HdrWF h0) (hc0 : h0.compression = 0)
    (hnl : ¬(h0.signature[13]? = some 49 ∧ h0.signature[15]? = some 48))
    (t : Ty) (v : Val) (hv : wt t v = true) (hnp : noPtrTy t = true)
    (hbody : headSz < (headBlk (valOps v) (encodeHeader h0)).length) :
    endToEnd comp decomp h0 t v = .ok v := by
  have hsave : fullSave comp h0 v =
      .ok (wstream comp (encodeHeader h0) (valOps v)) :=
    fullSave_spec comp Hc h0 hwf hc0 t v hv
  obtain ⟨s0, hb, ls1, hinit, hbytes, hsim⟩ := initLoad_sim comp decomp
    Hi Hc Hb h0 hwf hnl (valOps v) ((valOps_valid v).1 t hv) hbody
  have hsim2 : SimInv comp (valOps v ++ []) (encodeHeader h0)
      (encLE 8 0) ls1 := by
    rw [List.append_nil]
    exact hsim
  obtain ⟨ls2, hval, hfin⟩ := (loadValArch_sim comp decomp Hi Hc Hb v).1
    t hv hnp [] (fun o ho => absurd ho (List.not_mem_nil o))
    (encodeHeader h0) (encLE 8 0) ls1 hsim2
  obtain ⟨-, -, -, -, -, hstream, hleg⟩ := hfin
  have hs2 : ls2.stream = encLE 8 0 := by
    rw [hstream]
    rfl
  have hend : endBlockLoad ls2 = .ok () := by
    unfold endBlockLoad
    rw [if_neg (by rw [hleg]; exact Bool.false_ne_true)]
    rw [if_neg (by rw [hs2, encLE_length]; omega)]
    rw [if_neg (by
      rw [hs2]
      intro hcon
      exact hcon (by
        rw [List.take_of_length_le (le_of_eq (encLE_length 8 0))]
        exact decLE_encLE64 (by norm_num)))]
  have hload : fullLoad decomp t
      (wstream comp (encodeHeader h0) (valOps v)) = .ok v := by
    unfold fullLoad
    rw [hinit]
    show (match loadBytes decomp headSz s0 with
      | Except.error e => Except.error e
      | Except.ok (_, s1) =>
        match loadValArch decomp t (defaultVal t) s1 with
        | Except.error e => Except.error e
        | Except.ok (v2, s2) =>
          match endBlockLoad s2 with
          | Except.error e => Except.error e
          | Except.ok _ => Except.ok v2) = _
    rw [hbytes]
    show (match loadValArch decomp t (defaultVal t) ls1 with
      | Except.error e => Except.error e
      | Except.ok (v2, s2) =>
        match endBlockLoad s2 with
        | Except.error e => Except.error e
        | Except.ok _ => Except.ok v2) = _
    rw [hval]
    show (match endBlockLoad ls2 with
      | Except.error e => Except.error e
      | Except.ok _ => Except.ok v) = _
    rw [hend]
  unfold endToEnd
  rw [hsave]
  show (match fullLoad decomp t
      (wstream comp (encodeHeader h0) (valOps v)) with
    | Except.error e => Except.error (RunErr.load e)
    | Except.ok w => Except.ok w) = _
  rw [hload]

/-- Witness for C1: a 1-byte scalar saved behind the concrete header
round-trips through the whole save/load pipeline. -/
theorem c1_witness :
    endToEnd compX decompX hdrA (.scalarT 1) (.scalar 1 5) =
      .ok (.scalar 1 5) :=
  c1_round_trip compX decompX (fun b => rfl)
    (fun b => List.cons_ne_nil 7 b)
    (by
      intro b hb
      show (7 :: b).length < lz4CompressBound BLOCK_BYTES
      have h1 : lz4CompressBound BLOCK_BYTES = 65809 := rfl
      have h2 : BLOCK_BYTES = 65536 := rfl
      simp only [List.length_cons]
      omega)
    hdrA
    (by refine ⟨rfl, ?_, rfl, ?_, ?_, ?_, ?_, ?_, ?_, ?_⟩ <;> decide)
    rfl (by decide) (.scalarT 1) (.scalar 1 5) (by decide) rfl
    (by decide)

/-- Counterexample to C1 as stated: a zero-length binary blob as the
sole saved value is well-typed and saves successfully, but loading the
produced stream fails (the first block's body beyond the header image
is empty, so its decompressed size is zero and the loader throws),
instead of reproducing the value. -/
theorem c1_counterexample :
    endToEnd compX decompX hdrA (.blobT 0) (.blobV []) =
      .error (.load .decompressFail) ∧
    wt (.blobT 0) (.blobV []) = true := ⟨rfl, rfl⟩

end FlannSer
